import Mathlib

/-!
Shallow embedding of `modules/ethereum/src/finality.rs`: the PoA finality
vote-tallying engine (`prepare_votes`, `finalize_blocks`, `is_finalized`,
`add_signers_votes`, `remove_signers_votes`, `empty_steps_signers`).

Modelling conventions:
* `Address`, `H256` hashes and step numbers are naturals.
* `BTreeMap<Address, u64>` is `Finmap (fun _ : Address => ℕ)` (canonical
  finite map: two maps are equal iff their lookups agree).
* `BTreeSet<Address>` is `Finset Address`; iteration over a `BTreeSet`
  (ascending key order) is modelled by folding over `sortAsc`, the
  ascending enumeration of the set.
* `VecDeque` queues are `List`s with the deque front at the list head.
* The `unreachable!` abort in `remove_signers_votes` is modelled by an
  `Option` layer: `none` is the fatal abort, which propagates through
  `prepare_votes` and `finalize_blocks` as the outer `Option`.
* Cryptographic public-key recovery (`secp256k1_ecdsa_recover` together
  with `SealedEmptyStep::message`, both external to this repository) is
  abstracted as a parameter `recov : Recover`, standing for the composite
  `empty_step_signer` of a sealed empty step given the parent hash.
* The host-provided `Storage::cached_finality_votes` lookup is an external
  collaborator; `finalize_blocks` takes its result (`CachedFinalityVotes`)
  directly as an argument.
-/

namespace Eth

/-- Validator address (Ethereum `Address`), modelled as a natural number. -/
abbrev Address := ℕ

/-- Block hash (`H256`), modelled as a natural number. -/
abbrev Hash := ℕ

/-- Immutable block identity: `HeaderId { number, hash }`. -/
structure HeaderId where
  number : ℕ
  hash : Hash
deriving DecidableEq

/-- A sealed empty step record carried in a header seal
(`SealedEmptyStep { signature, step }`), with both fields abstract. -/
structure SealedEmptyStep where
  signature : ℕ
  step : ℕ
deriving DecidableEq

/-- Header fields consumed by the finality engine: `author`, `parent_hash`,
`number` and the decoded empty-steps seal (`Header::empty_steps()` returns
`Option<Vec<SealedEmptyStep>>`). -/
structure Header where
  author : Address
  parentHash : Hash
  number : ℕ
  emptySteps : Option (List SealedEmptyStep)
deriving DecidableEq

/-- Abstraction of `empty_step_signer`: derive the canonical message of an
empty step from the parent hash and attempt signature recovery, returning
the recovered address on success and `none` on recovery failure. -/
abbrev Recover := SealedEmptyStep → Hash → Option Address

/-- `empty_steps_signers`: the deduplicated set of addresses recovered from
the empty steps sealed in `header`; unrecoverable steps contribute nothing. -/
def empty_steps_signers (recov : Recover) (header : Header) : Finset Address :=
  ((header.emptySteps.getD []).filterMap (fun s => recov s header.parentHash)).toFinset

/-- `BTreeMap<Address, u64>`: the per-validator vote counts. -/
abbrev VoteMap := Finmap (fun _ : Address => ℕ)

variable {S : Type}

/-- `FinalityAncestor<Submitter>`: one ancestry block's credited signers. -/
structure FinalityAncestor (S : Type) where
  id : HeaderId
  submitter : Option S
  signers : Finset Address
deriving DecidableEq

/-- `FinalityVotes<Submitter>`: vote counts plus the ancestry queue,
oldest ancestor first. -/
structure FinalityVotes (S : Type) where
  votes : VoteMap
  ancestry : List (FinalityAncestor S)
deriving DecidableEq

/-- `CachedFinalityVotes<Submitter>`: the host cache-lookup result.
`unaccounted_ancestry` is newest-first (deque index 0 = newest). -/
structure CachedFinalityVotes (S : Type) where
  unaccounted_ancestry : List (HeaderId × Option S × Header)
  votes : Option (FinalityVotes S)
deriving DecidableEq

/-- `FinalityEffects<Submitter>`: output of `finalize_blocks`. -/
structure FinalityEffects (S : Type) where
  finalized_headers : List (HeaderId × Option S)
  votes : FinalityVotes S
deriving DecidableEq

/-- The crate error variant relevant to this module. -/
inductive Error where
  | NotValidator
deriving DecidableEq

/-- Insert a key into an ascending list, keeping it ascending.  Used to
realise the ascending iteration order of a `BTreeSet<Address>`. -/
def insertAsc (a : ℕ) : List ℕ → List ℕ
  | [] => [a]
  | b :: l => if a ≤ b then a :: b :: l else b :: insertAsc a l

theorem insertAsc_left_comm_of_lt {a b : ℕ} (h : a < b) (l : List ℕ) :
    insertAsc a (insertAsc b l) = insertAsc b (insertAsc a l) := by
  induction l with
  | nil =>
    have h1 : a ≤ b := Nat.le_of_lt h
    have h2 : ¬ b ≤ a := Nat.not_le.mpr h
    simp [insertAsc, h1, h2]
  | cons c l ih =>
    by_cases hbc : b ≤ c
    · have hac : a ≤ c := Nat.le_of_lt (Nat.lt_of_lt_of_le h hbc)
      have hab : a ≤ b := Nat.le_of_lt h
      have hba : ¬ b ≤ a := Nat.not_le.mpr h
      simp [insertAsc, hbc, hac, hab, hba]
    · by_cases hac : a ≤ c
      · have hba : ¬ b ≤ a := Nat.not_le.mpr h
        simp [insertAsc, hbc, hac, hba]
      · simp [insertAsc, hbc, hac, ih]

theorem insertAsc_left_comm (a b : ℕ) (l : List ℕ) :
    insertAsc a (insertAsc b l) = insertAsc b (insertAsc a l) := by
  rcases Nat.lt_trichotomy a b with h | h | h
  · exact insertAsc_left_comm_of_lt h l
  · rw [h]
  · exact (insertAsc_left_comm_of_lt h l).symm

instance : LeftCommutative insertAsc := ⟨insertAsc_left_comm⟩

/-- Ascending iteration order of a `BTreeSet<Address>`: the elements of the
set listed in increasing order.  Well defined by left commutativity of
ordered insertion. -/
def sortAsc (s : Finset Address) : List Address :=
  Multiset.foldr insertAsc [] s.val

theorem mem_insertAsc {x a : ℕ} {l : List ℕ} :
    x ∈ insertAsc a l ↔ x = a ∨ x ∈ l := by
  induction l with
  | nil => simp [insertAsc]
  | cons b l ih =>
    by_cases h : a ≤ b
    · simp [insertAsc, h]
    · simp [insertAsc, h, ih]
      tauto

theorem nodup_insertAsc {a : ℕ} {l : List ℕ} (ha : a ∉ l) (h : l.Nodup) :
    (insertAsc a l).Nodup := by
  induction l with
  | nil => simp [insertAsc]
  | cons b l ih =>
    by_cases hab : a ≤ b
    · simp only [insertAsc, if_pos hab]
      exact List.nodup_cons.mpr ⟨ha, h⟩
    · simp only [insertAsc, if_neg hab]
      rcases List.nodup_cons.mp h with ⟨hbl, hl⟩
      refine List.nodup_cons.mpr ⟨?_, ih (fun hm => ha (List.mem_cons_of_mem _ hm)) hl⟩
      intro hb
      rcases mem_insertAsc.mp hb with hba | hbl'
      · exact ha (hba ▸ List.mem_cons_self _ _)
      · exact hbl hbl'

theorem mem_foldr_insertAsc {x : ℕ} {l : List ℕ} :
    x ∈ List.foldr insertAsc [] l ↔ x ∈ l := by
  induction l with
  | nil => simp
  | cons a l ih => simp [mem_insertAsc, ih]

theorem mem_sortAsc {x : ℕ} {s : Finset Address} : x ∈ sortAsc s ↔ x ∈ s := by
  rcases s with ⟨m, hnd⟩
  induction m using Quotient.inductionOn with
  | h l =>
    show x ∈ Multiset.foldr insertAsc [] (l : Multiset ℕ) ↔ _
    rw [Multiset.coe_foldr]
    exact mem_foldr_insertAsc.trans (by simp [Finset.mem_def])

theorem nodup_sortAsc (s : Finset Address) : (sortAsc s).Nodup := by
  rcases s with ⟨m, hnd⟩
  induction m using Quotient.inductionOn with
  | h l =>
    show (Multiset.foldr insertAsc [] (l : Multiset ℕ)).Nodup
    rw [Multiset.coe_foldr]
    have hl : l.Nodup := hnd
    clear hnd
    induction l with
    | nil => simp
    | cons a l ih =>
      rcases List.nodup_cons.mp hl with ⟨hal, hl'⟩
      exact nodup_insertAsc (fun hm => hal (mem_foldr_insertAsc.mp hm)) (ih hl')

instance {E A : Type} [DecidableEq E] [DecidableEq A] : DecidableEq (Except E A) := fun
  | .error a, .error b =>
    if h : a = b then .isTrue (by rw [h]) else .isFalse (fun hc => h (Except.error.inj hc))
  | .ok a, .ok b =>
    if h : a = b then .isTrue (by rw [h]) else .isFalse (fun hc => h (Except.ok.inj hc))
  | .error _, .ok _ => .isFalse Except.noConfusion
  | .ok _, .error _ => .isFalse Except.noConfusion

/-- One iteration of the loop body of `add_signers_votes`:
`*votes.entry(*signer).or_insert(0) += 1`. -/
def add_signer_vote (signer : Address) (votes : VoteMap) : VoteMap :=
  votes.insert signer ((votes.lookup signer).getD 0 + 1)

/-- The loop of `add_signers_votes` over an explicit iteration list. -/
def add_signers_votes_list (validators : Finset Address) :
    List Address → VoteMap → Except Error VoteMap
  | [], votes => .ok votes
  | signer :: rest, votes =>
    if signer ∈ validators then
      add_signers_votes_list validators rest (add_signer_vote signer votes)
    else .error .NotValidator

/-- `add_signers_votes`: increment the count of every signer in the set,
in ascending key order (`sortAsc`), failing with `NotValidator` on the first signer
outside `validators`. -/
def add_signers_votes (validators signers_to_add : Finset Address)
    (votes : VoteMap) : Except Error VoteMap :=
  add_signers_votes_list validators (sortAsc signers_to_add) votes

/-- One iteration of the loop body of `remove_signers_votes`: decrement an
occupied entry (erasing it when it would reach zero); a vacant entry is the
`unreachable!` abort, modelled as `none`. -/
def remove_signer_vote (signer : Address) (votes : VoteMap) : Option VoteMap :=
  match votes.lookup signer with
  | some n => some (if n ≤ 1 then votes.erase signer else votes.insert signer (n - 1))
  | none => none

/-- The loop of `remove_signers_votes` over an explicit iteration list. -/
def remove_signers_votes_list : List Address → VoteMap → Option VoteMap
  | [], votes => some votes
  | signer :: rest, votes =>
    match remove_signer_vote signer votes with
    | some votes' => remove_signers_votes_list rest votes'
    | none => none

/-- `remove_signers_votes`: decrement the count of every signer in the set,
in ascending key order; `none` models the fatal `unreachable!` abort hit on
a signer with no recorded votes. -/
def remove_signers_votes (signers_to_remove : Finset Address)
    (votes : VoteMap) : Option VoteMap :=
  remove_signers_votes_list (sortAsc signers_to_remove) votes

/-- The first loop of `prepare_votes` (lines 156-163): pop ancestry entries
from the front while their number is ≤ `best_finalized_number`, removing
their signers' votes; stop (pushing the entry back) at the first entry with
a greater number. -/
def prune_finalized (best_finalized_number : ℕ) :
    List (FinalityAncestor S) → VoteMap →
    Option (List (FinalityAncestor S) × VoteMap)
  | [], votes => some ([], votes)
  | old_ancestor :: rest, votes =>
    if best_finalized_number < old_ancestor.id.number then
      some (old_ancestor :: rest, votes)
    else
      match remove_signers_votes old_ancestor.signers votes with
      | some votes' => prune_finalized best_finalized_number rest votes'
      | none => none

/-- The second loop of `prepare_votes` (lines 166-180): walk the
newest-first unaccounted ancestry, crediting each ancestor with its own
author plus the empty-step signers of its child (the loop-carried
`parent_empty_step_signers`, swapped forward by one position).  Returns the
updated vote map together with the new ancestry entries, oldest first. -/
def replay_unaccounted (recov : Recover) (validators : Finset Address) :
    List (HeaderId × Option S × Header) → Finset Address → VoteMap →
    Except Error (VoteMap × List (FinalityAncestor S))
  | [], _, votes => .ok (votes, [])
  | (ancestor_id, ancestor_submitter, ancestor) :: rest,
      parent_empty_step_signers, votes =>
    let signers := insert ancestor.author parent_empty_step_signers
    match add_signers_votes validators signers votes with
    | .error e => .error e
    | .ok votes' =>
      match replay_unaccounted recov validators rest
          (empty_steps_signers recov ancestor) votes' with
      | .error e => .error e
      | .ok (votes'', anc) =>
        .ok (votes'', anc ++ [⟨ancestor_id, ancestor_submitter, signers⟩])

/-- `prepare_votes`: merge a cached tally with the unaccounted ancestry of
the header being imported.  `none` models the fatal abort inside
`remove_signers_votes`; `some (.error ...)` is the `Err` path. -/
def prepare_votes (recov : Recover) (cached_votes : CachedFinalityVotes S)
    (best_finalized_number : ℕ) (validators : Finset Address) (id : HeaderId)
    (header : Header) (submitter : Option S) :
    Option (Except Error (FinalityVotes S)) :=
  if header.author ∉ validators then some (.error .NotValidator)
  else
    let votes := cached_votes.votes.getD ⟨∅, []⟩
    match prune_finalized best_finalized_number votes.ancestry votes.votes with
    | none => none
    | some (ancestry, vm) =>
      match replay_unaccounted recov validators cached_votes.unaccounted_ancestry
          (empty_steps_signers recov header) vm with
      | .error e => some (.error e)
      | .ok (vm', new_ancestry) =>
        some (.ok ⟨add_signer_vote header.author vm',
          ancestry ++ new_ancestry ++ [⟨id, submitter, {header.author}⟩]⟩)

/-- `is_finalized`: enough votes under the applicable threshold.
`votes.len()` of the `BTreeMap` is the number of distinct keyed entries. -/
def is_finalized (validators : Finset Address) (votes : VoteMap)
    (requires_two_thirds_majority : Bool) : Bool :=
  (!requires_two_thirds_majority && decide (validators.card < votes.keys.card * 2)) ||
  (requires_two_thirds_majority && decide (validators.card * 2 < votes.keys.card * 3))

/-- The finalization walk of `finalize_blocks` (lines 102-115): scan the
merged ancestry oldest-first with a working copy of the vote map, stopping
at the first ancestor that is not finalized. -/
def finalize_loop (validators : Finset Address)
    (two_thirds_majority_transition : ℕ) :
    List (FinalityAncestor S) → VoteMap → Option (List (HeaderId × Option S))
  | [], _ => some []
  | ancestor :: rest, current_votes =>
    if is_finalized validators current_votes
        (decide (two_thirds_majority_transition ≤ ancestor.id.number)) then
      match remove_signers_votes ancestor.signers current_votes with
      | some current_votes' =>
        match finalize_loop validators two_thirds_majority_transition
            rest current_votes' with
        | some finalized => some ((ancestor.id, ancestor.submitter) :: finalized)
        | none => none
      | none => none
    else some []

/-- `finalize_blocks`: build the merged tally via `prepare_votes`, then walk
it to collect the newly finalized prefix.  The validator set is collected
from the supplied address slice; the host cache lookup result is passed in
as `cached_votes`. -/
def finalize_blocks (recov : Recover) (cached_votes : CachedFinalityVotes S)
    (best_finalized : HeaderId) (validator_addresses : List Address)
    (id : HeaderId) (submitter : Option S) (header : Header)
    (two_thirds_majority_transition : ℕ) :
    Option (Except Error (FinalityEffects S)) :=
  let validators := validator_addresses.toFinset
  match prepare_votes recov cached_votes best_finalized.number validators
      id header submitter with
  | none => none
  | some (.error e) => some (.error e)
  | some (.ok votes) =>
    match finalize_loop validators two_thirds_majority_transition
        votes.ancestry votes.votes with
    | some finalized_headers => some (.ok ⟨finalized_headers, votes⟩)
    | none => none

/-- Number of ancestry entries whose `signers` set contains `a`. -/
def vote_count (ancestry : List (FinalityAncestor S)) (a : Address) : ℕ :=
  List.countP (fun x => decide (a ∈ x.signers)) ancestry

/-- The `FinalityVotes` invariant: for every address `a`, `votes[a]` equals
the number of ancestry entries whose `signers` set contains `a` (an absent
address counting as 0), and no address is ever stored with count 0. -/
def TallyInv (fv : FinalityVotes S) : Prop :=
  ∀ a, (fv.votes.lookup a).getD 0 = vote_count fv.ancestry a ∧
    fv.votes.lookup a ≠ some 0

/-- A vote map realises exactly the count function `f`: present with count
`f a` when `f a > 0`, absent when `f a = 0`. -/
def good (m : VoteMap) (f : Address → ℕ) : Prop :=
  ∀ a, m.lookup a = if f a = 0 then none else some (f a)

/-- The credited signer sets of a newest-first unaccounted ancestry, stated
the way the specification phrases them: each ancestor is credited with its
own author plus the empty-step signers extracted from its immediate child
(`child` is the next-newer header; the importing header itself for the
newest ancestor). -/
def credited_signers (recov : Recover) :
    Header → List (HeaderId × Option S × Header) → List (Finset Address)
  | _, [] => []
  | child, (_, _, ancestor) :: rest =>
    insert ancestor.author (empty_steps_signers recov child) ::
      credited_signers recov ancestor rest

/-- The `FinalityAncestor` entries produced by the replay loop of
`prepare_votes` for a newest-first unaccounted ancestry, oldest first, as a
pure function of the loop-carried empty-step signer set `pes`. -/
def replay_ancestors (recov : Recover) :
    Finset Address → List (HeaderId × Option S × Header) →
    List (FinalityAncestor S)
  | _, [] => []
  | pes, (ancestor_id, ancestor_submitter, ancestor) :: rest =>
    replay_ancestors recov (empty_steps_signers recov ancestor) rest ++
      [⟨ancestor_id, ancestor_submitter, insert ancestor.author pes⟩]

/-- The value of the loop-carried `parent_empty_step_signers` accumulator
after the replay loop has consumed `l` starting from `pes`: the empty-step
signers of the last (oldest) header consumed, or `pes` when `l` is empty. -/
def carried_ess (recov : Recover) (pes : Finset Address) :
    List (HeaderId × Option S × Header) → Finset Address
  | [] => pes
  | e :: rest => carried_ess recov (empty_steps_signers recov e.2.2) rest

/-- The working-map fold performed by the finalization walk: remove the
signers' votes of each listed ancestor in turn (`none` is the fatal abort
inside `remove_signers_votes`). -/
def walk_votes : List (FinalityAncestor S) → VoteMap → Option VoteMap
  | [], m => some m
  | a :: rest, m =>
    match remove_signers_votes a.signers m with
    | some m' => walk_votes rest m'
    | none => none

/-! ### Pointwise characterisation of the vote bookkeeping primitives -/

theorem lookup_add_signer_vote (s : Address) (m : VoteMap) (a : Address) :
    (add_signer_vote s m).lookup a =
      if a = s then some ((m.lookup s).getD 0 + 1) else m.lookup a := by
  unfold add_signer_vote
  by_cases h : a = s
  · subst h; simp [Finmap.lookup_insert]
  · simp [h, Finmap.lookup_insert_of_ne _ h]

theorem good_getD {m : VoteMap} {f : Address → ℕ} (h : good m f) (a : Address) :
    (m.lookup a).getD 0 = f a := by
  rw [h a]
  by_cases hf : f a = 0 <;> simp [hf]

theorem good_ext {m m' : VoteMap} {f : Address → ℕ}
    (h1 : good m f) (h2 : good m' f) : m = m' :=
  Finmap.ext_lookup fun a => by rw [h1 a, h2 a]

theorem good_congr {m : VoteMap} {f g : Address → ℕ}
    (h : good m f) (hfg : ∀ a, f a = g a) : good m g := fun a => by
  rw [← hfg a]; exact h a

theorem good_empty : good (∅ : VoteMap) (fun _ => 0) := fun a => by
  simp [Finmap.lookup_empty]

theorem good_iff_tallyInv {fv : FinalityVotes S} :
    TallyInv fv ↔ good fv.votes (vote_count fv.ancestry) := by
  constructor
  · intro h a
    rcases h a with ⟨hc, hz⟩
    rcases he : fv.votes.lookup a with _ | n
    · rw [he] at hc
      simp only [Option.getD_none] at hc
      rw [if_pos hc.symm]
    · rw [he] at hc hz
      simp only [Option.getD_some] at hc
      have hn0 : vote_count fv.ancestry a ≠ 0 := by
        intro h0
        exact hz (by rw [hc, h0])
      rw [if_neg hn0, hc]
  · intro h a
    refine ⟨good_getD h a, ?_⟩
    rw [h a]
    by_cases hf : vote_count fv.ancestry a = 0 <;> simp [hf]

theorem add_signer_vote_good {m : VoteMap} {f : Address → ℕ}
    (h : good m f) (s : Address) :
    good (add_signer_vote s m) (fun a => if a = s then f a + 1 else f a) := by
  intro a
  rw [lookup_add_signer_vote]
  by_cases has : a = s
  · subst has
    rw [good_getD h]
    simp
  · simp only [if_neg has]
    exact h a

theorem lookup_remove_signer_vote {s : Address} {m m' : VoteMap}
    (h : remove_signer_vote s m = some m') (a : Address) :
    m'.lookup a =
      if a = s then
        (if (m.lookup s).getD 0 ≤ 1 then none else some ((m.lookup s).getD 0 - 1))
      else m.lookup a := by
  unfold remove_signer_vote at h
  rcases he : m.lookup s with _ | n
  · rw [he] at h; exact absurd h (by simp)
  · rw [he] at h
    simp only [Option.some.injEq] at h
    subst h
    simp only [Option.getD_some]
    by_cases has : a = s
    · subst has
      by_cases hn : n ≤ 1 <;> simp [hn, Finmap.lookup_insert, Finmap.lookup_erase]
    · by_cases hn : n ≤ 1 <;>
        simp [hn, has, Finmap.lookup_insert_of_ne _ has,
          Finmap.lookup_erase_ne has]

theorem remove_signer_vote_isSome {s : Address} {m : VoteMap} {n : ℕ}
    (h : m.lookup s = some n) : ∃ m', remove_signer_vote s m = some m' := by
  unfold remove_signer_vote
  rw [h]
  exact ⟨_, rfl⟩

theorem remove_signer_vote_of_none {s : Address} {m : VoteMap}
    (h : m.lookup s = none) : remove_signer_vote s m = none := by
  unfold remove_signer_vote
  rw [h]

/-! ### The add / remove loops over explicit iteration lists -/

theorem add_signers_votes_list_good {V : Finset Address} {l : List Address}
    {m m' : VoteMap} {f : Address → ℕ}
    (hok : add_signers_votes_list V l m = .ok m')
    (hnd : l.Nodup) (hg : good m f) :
    good m' (fun a => if a ∈ l then f a + 1 else f a) := by
  induction l generalizing m f with
  | nil =>
    simp only [add_signers_votes_list, Except.ok.injEq] at hok
    subst hok
    exact good_congr hg (by simp)
  | cons s rest ih =>
    rw [add_signers_votes_list] at hok
    by_cases hs : s ∈ V
    · rw [if_pos hs] at hok
      rcases List.nodup_cons.mp hnd with ⟨hsr, hnd'⟩
      have h1 := add_signer_vote_good hg s
      have h2 := ih hok hnd' h1
      refine good_congr h2 (fun a => ?_)
      by_cases har : a ∈ rest
      · have has : a ≠ s := fun h => hsr (h ▸ har)
        simp [har, has, List.mem_cons]
      · by_cases has : a = s
        · subst has
          simp [har]
        · simp [har, has, List.mem_cons]
    · rw [if_neg hs] at hok
      exact absurd hok (by simp)

theorem add_signers_votes_list_ok {V : Finset Address} {l : List Address}
    (m : VoteMap) (hmem : ∀ x ∈ l, x ∈ V) :
    ∃ m', add_signers_votes_list V l m = .ok m' := by
  induction l generalizing m with
  | nil => exact ⟨m, rfl⟩
  | cons s rest ih =>
    rw [add_signers_votes_list, if_pos (hmem s (List.mem_cons_self s rest))]
    exact ih _ (fun x hx => hmem x (List.mem_cons_of_mem _ hx))

theorem add_signers_votes_list_err {V : Finset Address} {l : List Address}
    (m : VoteMap) (hbad : ∃ x ∈ l, x ∉ V) :
    add_signers_votes_list V l m = .error .NotValidator := by
  induction l generalizing m with
  | nil => rcases hbad with ⟨x, hx, _⟩; exact absurd hx (by simp)
  | cons s rest ih =>
    rw [add_signers_votes_list]
    by_cases hs : s ∈ V
    · rw [if_pos hs]
      rcases hbad with ⟨x, hx, hxV⟩
      rcases List.mem_cons.mp hx with hxs | hxr
      · exact absurd (hxs ▸ hs) hxV
      · exact ih _ ⟨x, hxr, hxV⟩
    · rw [if_neg hs]

theorem add_signers_votes_good {V s : Finset Address} {m m' : VoteMap}
    {f : Address → ℕ} (hok : add_signers_votes V s m = .ok m') (hg : good m f) :
    good m' (fun a => if a ∈ s then f a + 1 else f a) := by
  have := add_signers_votes_list_good hok (nodup_sortAsc s) hg
  exact good_congr this (fun a => by simp only [mem_sortAsc])

theorem add_signers_votes_ok {V s : Finset Address} (m : VoteMap)
    (hsub : s ⊆ V) : ∃ m', add_signers_votes V s m = .ok m' :=
  add_signers_votes_list_ok m (fun x hx => hsub (mem_sortAsc.mp hx))

theorem add_signers_votes_err {V s : Finset Address} (m : VoteMap)
    (hbad : ¬ s ⊆ V) : add_signers_votes V s m = .error .NotValidator := by
  rcases Finset.not_subset.mp hbad with ⟨x, hx, hxV⟩
  exact add_signers_votes_list_err m ⟨x, mem_sortAsc.mpr hx, hxV⟩

theorem remove_signers_votes_list_good {l : List Address} {m : VoteMap}
    {f : Address → ℕ} (hnd : l.Nodup) (hpos : ∀ x ∈ l, f x ≠ 0)
    (hg : good m f) :
    ∃ m', remove_signers_votes_list l m = some m' ∧
      good m' (fun a => if a ∈ l then f a - 1 else f a) := by
  induction l generalizing m f with
  | nil => exact ⟨m, rfl, good_congr hg (by simp)⟩
  | cons s rest ih =>
    rcases List.nodup_cons.mp hnd with ⟨hsr, hnd'⟩
    have hfs : f s ≠ 0 := hpos s (List.mem_cons_self s rest)
    have hls : m.lookup s = some (f s) := by rw [hg s, if_neg hfs]
    rcases remove_signer_vote_isSome hls with ⟨m₁, hm₁⟩
    have hg₁ : good m₁ (fun a => if a = s then f a - 1 else f a) := by
      intro a
      rw [lookup_remove_signer_vote hm₁ a]
      by_cases has : a = s
      · subst has
        rw [good_getD hg]
        by_cases h1 : f a ≤ 1
        · have : f a - 1 = 0 := by omega
          simp [h1, this]
        · have : ¬ (f a - 1 = 0) := by omega
          simp [h1, this]
      · simp only [if_neg has]
        exact hg a
    have hpos' : ∀ x ∈ rest, (fun a => if a = s then f a - 1 else f a) x ≠ 0 := by
      intro x hx
      have hxs : x ≠ s := fun h => hsr (h ▸ hx)
      simp only [if_neg hxs]
      exact hpos x (List.mem_cons_of_mem _ hx)
    rcases ih hnd' hpos' hg₁ with ⟨m', hm', hgood'⟩
    refine ⟨m', ?_, ?_⟩
    · rw [remove_signers_votes_list, hm₁]
      exact hm'
    · refine good_congr hgood' (fun a => ?_)
      by_cases har : a ∈ rest
      · have has : a ≠ s := fun h => hsr (h ▸ har)
        simp [har, has, List.mem_cons]
      · by_cases has : a = s
        · subst has
          simp [har]
        · simp [har, has, List.mem_cons]

theorem remove_signers_votes_good {s : Finset Address} {m : VoteMap}
    {f : Address → ℕ} (hpos : ∀ x ∈ s, f x ≠ 0) (hg : good m f) :
    ∃ m', remove_signers_votes s m = some m' ∧
      good m' (fun a => if a ∈ s then f a - 1 else f a) := by
  rcases remove_signers_votes_list_good (nodup_sortAsc s)
      (fun x hx => hpos x (mem_sortAsc.mp hx)) hg with ⟨m', h1, h2⟩
  exact ⟨m', h1, good_congr h2 (fun a => by simp only [mem_sortAsc])⟩

/-! ### Vote counts over ancestry lists -/

theorem vote_count_nil (x : Address) :
    vote_count ([] : List (FinalityAncestor S)) x = 0 := rfl

theorem vote_count_cons (a : FinalityAncestor S)
    (rest : List (FinalityAncestor S)) (x : Address) :
    vote_count (a :: rest) x =
      vote_count rest x + (if x ∈ a.signers then 1 else 0) := by
  unfold vote_count
  rw [List.countP_cons]
  by_cases hx : x ∈ a.signers <;> simp [hx]

theorem vote_count_append (l1 l2 : List (FinalityAncestor S)) (x : Address) :
    vote_count (l1 ++ l2) x = vote_count l1 x + vote_count l2 x := by
  unfold vote_count
  exact List.countP_append _ l1 l2

/-! ### The pruning loop -/

theorem prune_finalized_good (bfn : ℕ) {anc : List (FinalityAncestor S)}
    {m : VoteMap} (hg : good m (vote_count anc)) :
    ∃ m', prune_finalized bfn anc m =
        some (anc.dropWhile (fun x => decide (x.id.number ≤ bfn)), m') ∧
      good m' (vote_count (anc.dropWhile (fun x => decide (x.id.number ≤ bfn)))) := by
  induction anc generalizing m with
  | nil => exact ⟨m, rfl, hg⟩
  | cons a rest ih =>
    by_cases hn : bfn < a.id.number
    · have hp : decide (a.id.number ≤ bfn) = false := by
        simp only [decide_eq_false_iff_not]
        omega
      refine ⟨m, ?_, ?_⟩
      · rw [prune_finalized, if_pos hn, List.dropWhile_cons, hp]
        simp
      · rw [List.dropWhile_cons, hp]
        simpa using hg
    · have hle : a.id.number ≤ bfn := by omega
      have hp : decide (a.id.number ≤ bfn) = true := by
        simpa using hle
      have hpos : ∀ x ∈ a.signers, vote_count (a :: rest) x ≠ 0 := by
        intro x hx
        rw [vote_count_cons]
        simp [hx]
      rcases remove_signers_votes_good hpos hg with ⟨m₁, hrem, hg₁⟩
      have hg₁' : good m₁ (vote_count rest) := by
        refine good_congr hg₁ (fun x => ?_)
        rw [vote_count_cons]
        by_cases hx : x ∈ a.signers <;> simp [hx]
      rcases ih hg₁' with ⟨m', hp', hg'⟩
      refine ⟨m', ?_, ?_⟩
      · rw [prune_finalized, if_neg hn, hrem, List.dropWhile_cons, hp]
        simpa using hp'
      · rw [List.dropWhile_cons, hp]
        simpa using hg'

/-! ### The replay loop -/

theorem carried_ess_cons (recov : Recover) (pes : Finset Address)
    (e : HeaderId × Option S × Header) (rest : List (HeaderId × Option S × Header)) :
    carried_ess recov pes (e :: rest) =
      carried_ess recov (empty_steps_signers recov e.2.2) rest := rfl

theorem carried_ess_concat (recov : Recover) (pes : Finset Address)
    (l : List (HeaderId × Option S × Header)) (e : HeaderId × Option S × Header) :
    carried_ess recov pes (l ++ [e]) = empty_steps_signers recov e.2.2 := by
  induction l generalizing pes with
  | nil => rfl
  | cons e' rest ih => exact ih _

theorem replay_ancestors_append (recov : Recover) (pes : Finset Address)
    (l1 l2 : List (HeaderId × Option S × Header)) :
    replay_ancestors recov pes (l1 ++ l2) =
      replay_ancestors recov (carried_ess recov pes l1) l2 ++
        replay_ancestors recov pes l1 := by
  induction l1 generalizing pes with
  | nil => simp [replay_ancestors, carried_ess]
  | cons e rest ih =>
    rcases e with ⟨aid, asub, ahdr⟩
    rw [List.cons_append, replay_ancestors, replay_ancestors, ih,
      carried_ess_cons]
    simp [List.append_assoc]

theorem replay_ancestors_map_id (recov : Recover) (pes : Finset Address)
    (l : List (HeaderId × Option S × Header)) :
    (replay_ancestors recov pes l).map (fun x => (x.id, x.submitter)) =
      (l.map (fun e => (e.1, e.2.1))).reverse := by
  induction l generalizing pes with
  | nil => rfl
  | cons e rest ih =>
    rcases e with ⟨aid, asub, ahdr⟩
    rw [replay_ancestors, List.map_append, ih]
    simp

theorem replay_ancestors_signers_credited (recov : Recover) (child : Header)
    (l : List (HeaderId × Option S × Header)) :
    (replay_ancestors recov (empty_steps_signers recov child) l).map
        (fun x => x.signers) =
      (credited_signers recov child l).reverse := by
  induction l generalizing child with
  | nil => rfl
  | cons e rest ih =>
    rcases e with ⟨aid, asub, ahdr⟩
    rw [replay_ancestors, credited_signers, List.map_append, ih]
    simp

theorem replay_unaccounted_cons_ok {recov : Recover} {V : Finset Address}
    {rest : List (HeaderId × Option S × Header)} {pes : Finset Address}
    {aid : HeaderId} {asub : Option S} {ahdr : Header}
    {m m₁ m₂ : VoteMap} {anc₂ : List (FinalityAncestor S)}
    (hadd : add_signers_votes V (insert ahdr.author pes) m = .ok m₁)
    (hrec : replay_unaccounted recov V rest
      (empty_steps_signers recov ahdr) m₁ = .ok (m₂, anc₂)) :
    replay_unaccounted recov V ((aid, asub, ahdr) :: rest) pes m =
      .ok (m₂, anc₂ ++ [⟨aid, asub, insert ahdr.author pes⟩]) := by
  simp only [replay_unaccounted, hadd, hrec]

theorem replay_unaccounted_cons_err₁ {V : Finset Address}
    {rest : List (HeaderId × Option S × Header)} {pes : Finset Address}
    {aid : HeaderId} {asub : Option S} {ahdr : Header}
    {m : VoteMap} {e : Error} (recov : Recover)
    (hadd : add_signers_votes V (insert ahdr.author pes) m = .error e) :
    replay_unaccounted (S := S) recov V ((aid, asub, ahdr) :: rest) pes m =
      .error e := by
  simp only [replay_unaccounted, hadd]

theorem replay_unaccounted_cons_err₂ {recov : Recover} {V : Finset Address}
    {rest : List (HeaderId × Option S × Header)} {pes : Finset Address}
    {aid : HeaderId} {asub : Option S} {ahdr : Header}
    {m m₁ : VoteMap} {e : Error}
    (hadd : add_signers_votes V (insert ahdr.author pes) m = .ok m₁)
    (hrec : replay_unaccounted (S := S) recov V rest
      (empty_steps_signers recov ahdr) m₁ = .error e) :
    replay_unaccounted recov V ((aid, asub, ahdr) :: rest) pes m =
      .error e := by
  simp only [replay_unaccounted, hadd, hrec]

theorem replay_unaccounted_cons_inv {recov : Recover} {V : Finset Address}
    {rest : List (HeaderId × Option S × Header)} {pes : Finset Address}
    {aid : HeaderId} {asub : Option S} {ahdr : Header}
    {m m' : VoteMap} {anc : List (FinalityAncestor S)}
    (h : replay_unaccounted recov V ((aid, asub, ahdr) :: rest) pes m =
      .ok (m', anc)) :
    ∃ m₁ anc₂, add_signers_votes V (insert ahdr.author pes) m = .ok m₁ ∧
      replay_unaccounted recov V rest
        (empty_steps_signers recov ahdr) m₁ = .ok (m', anc₂) ∧
      anc = anc₂ ++ [⟨aid, asub, insert ahdr.author pes⟩] := by
  rcases hadd : add_signers_votes V (insert ahdr.author pes) m with e₁ | m₁
  · rw [replay_unaccounted_cons_err₁ recov hadd] at h
    exact absurd h (by simp)
  · rcases hrec : replay_unaccounted recov V rest
        (empty_steps_signers recov ahdr) m₁ with e₂ | ⟨m₂, anc₂⟩
    · rw [replay_unaccounted_cons_err₂ hadd hrec] at h
      exact absurd h (by simp)
    · rw [replay_unaccounted_cons_ok hadd hrec] at h
      simp only [Except.ok.injEq, Prod.mk.injEq] at h
      rcases h with ⟨hm, hanc⟩
      exact ⟨m₁, anc₂, rfl, by rw [hrec, hm], hanc.symm⟩

theorem replay_unaccounted_nil_inv {recov : Recover} {V : Finset Address}
    {pes : Finset Address} {m m' : VoteMap} {anc : List (FinalityAncestor S)}
    (h : replay_unaccounted recov V [] pes m = .ok (m', anc)) :
    m' = m ∧ anc = [] := by
  rw [replay_unaccounted] at h
  simp only [Except.ok.injEq, Prod.mk.injEq] at h
  exact ⟨h.1.symm, h.2.symm⟩

theorem replay_unaccounted_ok_anc {recov : Recover} {V : Finset Address}
    {l : List (HeaderId × Option S × Header)} {pes : Finset Address}
    {m m' : VoteMap} {anc : List (FinalityAncestor S)}
    (h : replay_unaccounted recov V l pes m = .ok (m', anc)) :
    anc = replay_ancestors recov pes l := by
  induction l generalizing pes m m' anc with
  | nil => exact (replay_unaccounted_nil_inv h).2
  | cons e rest ih =>
    rcases e with ⟨aid, asub, ahdr⟩
    rcases replay_unaccounted_cons_inv h with ⟨m₁, anc₂, _, hrec, hanc⟩
    rw [hanc, replay_ancestors, ih hrec]

theorem replay_unaccounted_ok_good {recov : Recover} {V : Finset Address}
    {l : List (HeaderId × Option S × Header)} {pes : Finset Address}
    {m m' : VoteMap} {anc : List (FinalityAncestor S)} {f : Address → ℕ}
    (h : replay_unaccounted recov V l pes m = .ok (m', anc)) (hg : good m f) :
    good m' (fun a => f a + vote_count anc a) := by
  induction l generalizing pes m f anc m' with
  | nil =>
    rcases replay_unaccounted_nil_inv h with ⟨hm, hanc⟩
    subst hm
    refine good_congr hg (fun a => ?_)
    rw [hanc, vote_count_nil]
    omega
  | cons e rest ih =>
    rcases e with ⟨aid, asub, ahdr⟩
    rcases replay_unaccounted_cons_inv h with ⟨m₁, anc₂, hadd, hrec, hanc⟩
    have hg₁ := add_signers_votes_good hadd hg
    have hg₂ := ih hrec hg₁
    refine good_congr hg₂ (fun a => ?_)
    rw [hanc, vote_count_append, vote_count_cons, vote_count_nil]
    by_cases ha : a ∈ insert ahdr.author pes <;> simp [ha] <;> omega

theorem replay_unaccounted_ok_of_valid {recov : Recover} {V : Finset Address}
    {l : List (HeaderId × Option S × Header)} {pes : Finset Address}
    (m : VoteMap)
    (hval : ∀ x ∈ replay_ancestors (S := S) recov pes l, x.signers ⊆ V) :
    ∃ m' anc, replay_unaccounted recov V l pes m = .ok (m', anc) := by
  induction l generalizing pes m with
  | nil => exact ⟨m, [], rfl⟩
  | cons e rest ih =>
    rcases e with ⟨aid, asub, ahdr⟩
    have hhead : insert ahdr.author pes ⊆ V := by
      refine hval ⟨aid, asub, insert ahdr.author pes⟩ ?_
      rw [replay_ancestors]
      simp
    rcases add_signers_votes_ok m hhead with ⟨m₁, hadd⟩
    have hval' : ∀ x ∈ replay_ancestors (S := S) recov
        (empty_steps_signers recov ahdr) rest, x.signers ⊆ V := by
      intro x hx
      refine hval x ?_
      rw [replay_ancestors]
      exact List.mem_append_left _ hx
    rcases ih m₁ hval' with ⟨m₂, anc₂, hrec⟩
    exact ⟨m₂, anc₂ ++ [⟨aid, asub, insert ahdr.author pes⟩],
      replay_unaccounted_cons_ok hadd hrec⟩

theorem replay_unaccounted_err_of_bad {recov : Recover} {V : Finset Address}
    {l : List (HeaderId × Option S × Header)} {pes : Finset Address}
    (m : VoteMap)
    (hbad : ∃ x ∈ replay_ancestors (S := S) recov pes l, ¬ x.signers ⊆ V) :
    replay_unaccounted recov V l pes m = .error .NotValidator := by
  induction l generalizing pes m with
  | nil =>
    rcases hbad with ⟨x, hx, _⟩
    exact absurd hx (by simp [replay_ancestors])
  | cons e rest ih =>
    rcases e with ⟨aid, asub, ahdr⟩
    by_cases hhead : insert ahdr.author pes ⊆ V
    · rcases add_signers_votes_ok m hhead with ⟨m₁, hadd⟩
      have hbad' : ∃ x ∈ replay_ancestors (S := S) recov
          (empty_steps_signers recov ahdr) rest, ¬ x.signers ⊆ V := by
        rcases hbad with ⟨x, hx, hxs⟩
        rw [replay_ancestors] at hx
        rcases List.mem_append.mp hx with hx₁ | hx₂
        · exact ⟨x, hx₁, hxs⟩
        · exfalso
          rcases List.mem_singleton.mp hx₂ with rfl
          exact hxs hhead
      exact replay_unaccounted_cons_err₂ hadd (ih m₁ hbad')
    · exact replay_unaccounted_cons_err₁ recov (add_signers_votes_err m hhead)

/-! ### Unfolding and inversion for `prepare_votes` and `finalize_blocks` -/

theorem prepare_votes_author_err {recov : Recover} {cached : CachedFinalityVotes S}
    {bfn : ℕ} {V : Finset Address} {id : HeaderId} {hdr : Header} {sub : Option S}
    (h : hdr.author ∉ V) :
    prepare_votes recov cached bfn V id hdr sub = some (.error .NotValidator) := by
  simp only [prepare_votes, if_pos h]

theorem prepare_votes_prune_none {recov : Recover} {cached : CachedFinalityVotes S}
    {bfn : ℕ} {V : Finset Address} {id : HeaderId} {hdr : Header} {sub : Option S}
    (hauth : hdr.author ∈ V)
    (hprune : prune_finalized bfn (cached.votes.getD ⟨∅, []⟩).ancestry
      (cached.votes.getD ⟨∅, []⟩).votes = none) :
    prepare_votes recov cached bfn V id hdr sub = none := by
  simp only [prepare_votes, if_neg (not_not_intro hauth), hprune]

theorem prepare_votes_replay_err {recov : Recover} {cached : CachedFinalityVotes S}
    {bfn : ℕ} {V : Finset Address} {id : HeaderId} {hdr : Header} {sub : Option S}
    {anc1 : List (FinalityAncestor S)} {vm1 : VoteMap} {e : Error}
    (hauth : hdr.author ∈ V)
    (hprune : prune_finalized bfn (cached.votes.getD ⟨∅, []⟩).ancestry
      (cached.votes.getD ⟨∅, []⟩).votes = some (anc1, vm1))
    (hreplay : replay_unaccounted recov V cached.unaccounted_ancestry
      (empty_steps_signers recov hdr) vm1 = .error e) :
    prepare_votes recov cached bfn V id hdr sub = some (.error e) := by
  simp only [prepare_votes, if_neg (not_not_intro hauth), hprune, hreplay]

theorem prepare_votes_step {recov : Recover} {cached : CachedFinalityVotes S}
    {bfn : ℕ} {V : Finset Address} {id : HeaderId} {hdr : Header} {sub : Option S}
    {anc1 : List (FinalityAncestor S)} {vm1 vm2 : VoteMap}
    {anc2 : List (FinalityAncestor S)}
    (hauth : hdr.author ∈ V)
    (hprune : prune_finalized bfn (cached.votes.getD ⟨∅, []⟩).ancestry
      (cached.votes.getD ⟨∅, []⟩).votes = some (anc1, vm1))
    (hreplay : replay_unaccounted recov V cached.unaccounted_ancestry
      (empty_steps_signers recov hdr) vm1 = .ok (vm2, anc2)) :
    prepare_votes recov cached bfn V id hdr sub =
      some (.ok ⟨add_signer_vote hdr.author vm2,
        anc1 ++ anc2 ++ [⟨id, sub, {hdr.author}⟩]⟩) := by
  simp only [prepare_votes, if_neg (not_not_intro hauth), hprune, hreplay]

theorem prepare_votes_ok_inv {recov : Recover} {cached : CachedFinalityVotes S}
    {bfn : ℕ} {V : Finset Address} {id : HeaderId} {hdr : Header} {sub : Option S}
    {fv : FinalityVotes S}
    (h : prepare_votes recov cached bfn V id hdr sub = some (.ok fv)) :
    hdr.author ∈ V ∧ ∃ anc1 vm1 vm2,
      prune_finalized bfn (cached.votes.getD ⟨∅, []⟩).ancestry
        (cached.votes.getD ⟨∅, []⟩).votes = some (anc1, vm1) ∧
      replay_unaccounted recov V cached.unaccounted_ancestry
        (empty_steps_signers recov hdr) vm1 =
        .ok (vm2, replay_ancestors recov (empty_steps_signers recov hdr)
          cached.unaccounted_ancestry) ∧
      fv = ⟨add_signer_vote hdr.author vm2,
        anc1 ++ replay_ancestors recov (empty_steps_signers recov hdr)
            cached.unaccounted_ancestry ++ [⟨id, sub, {hdr.author}⟩]⟩ := by
  by_cases hauth : hdr.author ∈ V
  · refine ⟨hauth, ?_⟩
    rcases hprune : prune_finalized bfn (cached.votes.getD ⟨∅, []⟩).ancestry
        (cached.votes.getD ⟨∅, []⟩).votes with _ | ⟨anc1, vm1⟩
    · rw [prepare_votes_prune_none hauth hprune] at h
      exact absurd h (by simp)
    · rcases hreplay : replay_unaccounted recov V cached.unaccounted_ancestry
          (empty_steps_signers recov hdr) vm1 with e | ⟨vm2, anc2⟩
      · rw [prepare_votes_replay_err hauth hprune hreplay] at h
        exact absurd h (by simp)
      · have hanc2 := replay_unaccounted_ok_anc hreplay
        subst hanc2
        rw [prepare_votes_step hauth hprune hreplay] at h
        simp only [Option.some.injEq, Except.ok.injEq] at h
        exact ⟨anc1, vm1, vm2, rfl, hreplay, h.symm⟩
  · rw [prepare_votes_author_err hauth] at h
    exact absurd h (by simp)

theorem finalize_blocks_prepare_none {recov : Recover} {cached : CachedFinalityVotes S}
    {bf : HeaderId} {vaddrs : List Address} {id : HeaderId} {sub : Option S}
    {hdr : Header} {t : ℕ}
    (hp : prepare_votes recov cached bf.number vaddrs.toFinset id hdr sub = none) :
    finalize_blocks recov cached bf vaddrs id sub hdr t = none := by
  simp only [finalize_blocks, hp]

theorem finalize_blocks_prepare_err {recov : Recover} {cached : CachedFinalityVotes S}
    {bf : HeaderId} {vaddrs : List Address} {id : HeaderId} {sub : Option S}
    {hdr : Header} {t : ℕ} {e : Error}
    (hp : prepare_votes recov cached bf.number vaddrs.toFinset id hdr sub =
      some (.error e)) :
    finalize_blocks recov cached bf vaddrs id sub hdr t = some (.error e) := by
  simp only [finalize_blocks, hp]

theorem finalize_blocks_loop_none {recov : Recover} {cached : CachedFinalityVotes S}
    {bf : HeaderId} {vaddrs : List Address} {id : HeaderId} {sub : Option S}
    {hdr : Header} {t : ℕ} {votes : FinalityVotes S}
    (hp : prepare_votes recov cached bf.number vaddrs.toFinset id hdr sub =
      some (.ok votes))
    (hl : finalize_loop vaddrs.toFinset t votes.ancestry votes.votes = none) :
    finalize_blocks recov cached bf vaddrs id sub hdr t = none := by
  simp only [finalize_blocks, hp, hl]

theorem finalize_blocks_step {recov : Recover} {cached : CachedFinalityVotes S}
    {bf : HeaderId} {vaddrs : List Address} {id : HeaderId} {sub : Option S}
    {hdr : Header} {t : ℕ} {votes : FinalityVotes S}
    {fin : List (HeaderId × Option S)}
    (hp : prepare_votes recov cached bf.number vaddrs.toFinset id hdr sub =
      some (.ok votes))
    (hl : finalize_loop vaddrs.toFinset t votes.ancestry votes.votes = some fin) :
    finalize_blocks recov cached bf vaddrs id sub hdr t =
      some (.ok ⟨fin, votes⟩) := by
  simp only [finalize_blocks, hp, hl]

theorem finalize_blocks_ok_inv {recov : Recover} {cached : CachedFinalityVotes S}
    {bf : HeaderId} {vaddrs : List Address} {id : HeaderId} {sub : Option S}
    {hdr : Header} {t : ℕ} {eff : FinalityEffects S}
    (h : finalize_blocks recov cached bf vaddrs id sub hdr t = some (.ok eff)) :
    prepare_votes recov cached bf.number vaddrs.toFinset id hdr sub =
      some (.ok eff.votes) ∧
    finalize_loop vaddrs.toFinset t eff.votes.ancestry eff.votes.votes =
      some eff.finalized_headers := by
  rcases hp : prepare_votes recov cached bf.number vaddrs.toFinset id hdr sub
      with _ | exc
  · rw [finalize_blocks_prepare_none hp] at h
    exact absurd h (by simp)
  · rcases exc with e | votes
    · rw [finalize_blocks_prepare_err hp] at h
      exact absurd h (by simp)
    · rcases hl : finalize_loop vaddrs.toFinset t votes.ancestry votes.votes
          with _ | fin
      · rw [finalize_blocks_loop_none hp hl] at h
        exact absurd h (by simp)
      · rw [finalize_blocks_step hp hl] at h
        simp only [Option.some.injEq, Except.ok.injEq] at h
        subst h
        exact ⟨rfl, hl⟩

/-! ### Tally invariant preservation -/

theorem prepare_votes_tally {recov : Recover} {cached : CachedFinalityVotes S}
    {bfn : ℕ} {V : Finset Address} {id : HeaderId} {hdr : Header}
    {sub : Option S} {fv : FinalityVotes S}
    (hc : ∀ fv0, cached.votes = some fv0 → TallyInv fv0)
    (h : prepare_votes recov cached bfn V id hdr sub = some (.ok fv)) :
    TallyInv fv := by
  rcases prepare_votes_ok_inv h with ⟨hauth, anc1, vm1, vm2, hprune, hreplay, hfv⟩
  have hg0 : good (cached.votes.getD ⟨∅, []⟩).votes
      (vote_count (cached.votes.getD ⟨∅, []⟩).ancestry) := by
    rcases hcv : cached.votes with _ | fv0
    · simp only [Option.getD_none]
      exact good_congr good_empty (fun a => (vote_count_nil a).symm)
    · simp only [Option.getD_some]
      exact good_iff_tallyInv.mp (hc fv0 hcv)
  rcases prune_finalized_good bfn hg0 with ⟨m', hp', hg1⟩
  rw [hprune] at hp'
  simp only [Option.some.injEq, Prod.mk.injEq] at hp'
  rcases hp' with ⟨ha1, hm1⟩
  subst ha1
  subst hm1
  have hg2 := replay_unaccounted_ok_good hreplay hg1
  have hg3 := add_signer_vote_good hg2 hdr.author
  rw [good_iff_tallyInv, hfv]
  refine good_congr hg3 (fun a => ?_)
  simp only
  rw [vote_count_append, vote_count_append, vote_count_cons, vote_count_nil]
  by_cases ha : a = hdr.author <;>
    simp [ha, Finset.mem_singleton] <;> omega

/-! ### The finalization walk -/

theorem finalize_loop_cons_neg {V : Finset Address} {t : ℕ}
    {a : FinalityAncestor S} {rest : List (FinalityAncestor S)} {m : VoteMap}
    (hf : is_finalized V m (decide (t ≤ a.id.number)) = false) :
    finalize_loop V t (a :: rest) m = some [] := by
  simp [finalize_loop, hf]

theorem finalize_loop_cons_rem_none {V : Finset Address} {t : ℕ}
    {a : FinalityAncestor S} {rest : List (FinalityAncestor S)} {m : VoteMap}
    (hf : is_finalized V m (decide (t ≤ a.id.number)) = true)
    (hrem : remove_signers_votes a.signers m = none) :
    finalize_loop V t (a :: rest) m = none := by
  simp [finalize_loop, hf, hrem]

theorem finalize_loop_cons_pos {V : Finset Address} {t : ℕ}
    {a : FinalityAncestor S} {rest : List (FinalityAncestor S)} {m m₁ : VoteMap}
    (hf : is_finalized V m (decide (t ≤ a.id.number)) = true)
    (hrem : remove_signers_votes a.signers m = some m₁) :
    finalize_loop V t (a :: rest) m =
      (finalize_loop V t rest m₁).map (fun fin => (a.id, a.submitter) :: fin) := by
  simp only [finalize_loop, hf, hrem, if_true]
  cases hfl : finalize_loop V t rest m₁ <;> simp [hfl]

theorem finalize_loop_take_shape {V : Finset Address} {t : ℕ}
    {anc : List (FinalityAncestor S)} {m : VoteMap}
    {l : List (HeaderId × Option S)}
    (h : finalize_loop V t anc m = some l) :
    ∃ k, l = (anc.take k).map (fun x => (x.id, x.submitter)) ∧
      (k = anc.length ∨
        ∃ m' b rest', walk_votes (anc.take k) m = some m' ∧
          anc.drop k = b :: rest' ∧
          is_finalized V m' (decide (t ≤ b.id.number)) = false) := by
  induction anc generalizing m l with
  | nil =>
    rw [finalize_loop] at h
    simp only [Option.some.injEq] at h
    exact ⟨0, by rw [← h]; rfl, Or.inl rfl⟩
  | cons a rest ih =>
    rcases hf : is_finalized V m (decide (t ≤ a.id.number)) with _ | _
    · rw [finalize_loop_cons_neg hf] at h
      simp only [Option.some.injEq] at h
      exact ⟨0, by rw [← h]; rfl, Or.inr ⟨m, a, rest, rfl, rfl, hf⟩⟩
    · rcases hrem : remove_signers_votes a.signers m with _ | m₁
      · rw [finalize_loop_cons_rem_none hf hrem] at h
        exact absurd h (by simp)
      · rw [finalize_loop_cons_pos hf hrem] at h
        rcases hfl : finalize_loop V t rest m₁ with _ | fin
        · rw [hfl] at h
          exact absurd h (by simp)
        · rw [hfl] at h
          simp only [Option.map_some', Option.some.injEq] at h
          rcases ih hfl with ⟨k, hk, hstop⟩
          refine ⟨k + 1, ?_, ?_⟩
          · rw [← h, List.take_succ_cons, List.map_cons, ← hk]
          · rcases hstop with hlen | ⟨m', b, rest', hwalk, hdrop, hfb⟩
            · left
              simp [hlen]
            · right
              refine ⟨m', b, rest', ?_, ?_, hfb⟩
              · rw [List.take_succ_cons]
                simp [walk_votes, hrem, hwalk]
              · rw [List.drop_succ_cons]
                exact hdrop

/-! ### Claim theorems -/

/-- **C2**: in `prepare_votes`, every ancestor header `H` of the unaccounted
tail is credited with exactly `H`'s own author together with the empty-step
signers extracted from `H`'s immediate child (the next-newer header in the
tail, or the importing header itself for the newest ancestor), and the
`FinalityAncestor` appended for the importing header itself has signer set
exactly `{author}` — empty steps sealed in the importing header are credited
to its parent (the newest tail ancestor), not to the header itself. -/
theorem claim_C2 {recov : Recover} {cached : CachedFinalityVotes S} {bfn : ℕ}
    {V : Finset Address} {id : HeaderId} {hdr : Header} {sub : Option S}
    {fv : FinalityVotes S}
    (h : prepare_votes recov cached bfn V id hdr sub = some (.ok fv)) :
    ∃ pruned new_anc,
      fv.ancestry = pruned ++ new_anc ++ [⟨id, sub, {hdr.author}⟩] ∧
      new_anc.map (fun x => x.signers) =
        (credited_signers recov hdr cached.unaccounted_ancestry).reverse ∧
      new_anc.map (fun x => (x.id, x.submitter)) =
        (cached.unaccounted_ancestry.map (fun e => (e.1, e.2.1))).reverse := by
  rcases prepare_votes_ok_inv h with ⟨hauth, anc1, vm1, vm2, hprune, hreplay, hfv⟩
  exact ⟨anc1, _, by rw [hfv],
    replay_ancestors_signers_credited recov hdr _,
    replay_ancestors_map_id recov _ _⟩

/-- **C3**: every `FinalityVotes` returned by `prepare_votes` (given a cached
snapshot that itself satisfies the invariant) satisfies the tally invariant:
for every address `a`, `votes[a]` equals the number of ancestry entries whose
signer set contains `a`, and no address is mapped to 0. -/
theorem claim_C3 {recov : Recover} {cached : CachedFinalityVotes S} {bfn : ℕ}
    {V : Finset Address} {id : HeaderId} {hdr : Header} {sub : Option S}
    {fv : FinalityVotes S}
    (hc : ∀ fv0, cached.votes = some fv0 → TallyInv fv0)
    (h : prepare_votes recov cached bfn V id hdr sub = some (.ok fv)) :
    TallyInv fv :=
  prepare_votes_tally hc h

/-- **C4**: with the two-thirds flag computed as in `finalize_blocks`
(`ancestor number ≥ transition`), an ancestor below the transition is judged
finalized iff `distinct_voter_count * 2 > validator_count`, and an ancestor
at or above the transition (including exactly equal) iff
`distinct_voter_count * 3 > validator_count * 2`; `distinct_voter_count` is
the number of entries of the working vote map, and both comparisons are
strict integer inequalities. -/
theorem claim_C4 (V : Finset Address) (vm : VoteMap) (n t : ℕ) :
    (is_finalized V vm (decide (t ≤ n)) = true) ↔
      (if n < t then V.card < vm.keys.card * 2
        else V.card * 2 < vm.keys.card * 3) := by
  by_cases h : t ≤ n
  · have hd : decide (t ≤ n) = true := by simpa using h
    have hn : ¬ n < t := by omega
    rw [hd, if_neg hn]
    simp [is_finalized]
  · have hd : decide (t ≤ n) = false := by simpa using h
    have hn : n < t := by omega
    rw [hd, if_pos hn]
    simp [is_finalized]

/-- **C5**: the `finalized_headers` sequence returned by `finalize_blocks` is
exactly a prefix of the merged tally's ancestry taken in order, and the walk
stops permanently at the first ancestor failing the finality test: either the
whole ancestry is finalized, or the entry right after the returned prefix
fails `is_finalized` under the working map obtained by removing the votes of
the finalized prefix. -/
theorem claim_C5 {recov : Recover} {cached : CachedFinalityVotes S}
    {bf : HeaderId} {vaddrs : List Address} {id : HeaderId} {sub : Option S}
    {hdr : Header} {t : ℕ} {eff : FinalityEffects S}
    (h : finalize_blocks recov cached bf vaddrs id sub hdr t = some (.ok eff)) :
    ∃ k, eff.finalized_headers =
        (eff.votes.ancestry.take k).map (fun x => (x.id, x.submitter)) ∧
      (k = eff.votes.ancestry.length ∨
        ∃ m' b rest',
          walk_votes (eff.votes.ancestry.take k) eff.votes.votes = some m' ∧
          eff.votes.ancestry.drop k = b :: rest' ∧
          is_finalized vaddrs.toFinset m' (decide (t ≤ b.id.number)) = false) := by
  rcases finalize_blocks_ok_inv h with ⟨_, hl⟩
  exact finalize_loop_take_shape hl

/-- **C7**: if the importing header's author is not in the validator set,
`prepare_votes` and `finalize_blocks` return the `NotValidator` error, and
likewise `prepare_votes` returns `NotValidator` whenever some credited
signer set of the ancestry replay is not contained in the validator set
(given that the author check and the pruning step pass).  On these error
paths the `Except` value carries no tally. -/
theorem claim_C7 (recov : Recover) (cached : CachedFinalityVotes S)
    (bf : HeaderId) (vaddrs : List Address) (id : HeaderId) (hdr : Header)
    (sub : Option S) (t : ℕ) (anc1 : List (FinalityAncestor S)) (vm1 : VoteMap) :
    (hdr.author ∉ vaddrs.toFinset →
      prepare_votes recov cached bf.number vaddrs.toFinset id hdr sub =
        some (.error .NotValidator) ∧
      finalize_blocks recov cached bf vaddrs id sub hdr t =
        some (.error .NotValidator)) ∧
    (hdr.author ∈ vaddrs.toFinset →
      prune_finalized bf.number (cached.votes.getD ⟨∅, []⟩).ancestry
        (cached.votes.getD ⟨∅, []⟩).votes = some (anc1, vm1) →
      (∃ c ∈ credited_signers recov hdr cached.unaccounted_ancestry,
        ¬ c ⊆ vaddrs.toFinset) →
      prepare_votes recov cached bf.number vaddrs.toFinset id hdr sub =
        some (.error .NotValidator)) := by
  constructor
  · intro hauth
    have h1 : prepare_votes recov cached bf.number vaddrs.toFinset id hdr sub =
        some (.error .NotValidator) := prepare_votes_author_err hauth
    exact ⟨h1, finalize_blocks_prepare_err h1⟩
  · intro hauth hprune hbad
    have hbad' : ∃ x ∈ replay_ancestors (S := S) recov
        (empty_steps_signers recov hdr) cached.unaccounted_ancestry,
        ¬ x.signers ⊆ vaddrs.toFinset := by
      rcases hbad with ⟨c, hc, hcV⟩
      have hmem : c ∈ (replay_ancestors (S := S) recov
          (empty_steps_signers recov hdr) cached.unaccounted_ancestry).map
          (fun x => x.signers) := by
        rw [replay_ancestors_signers_credited recov hdr]
        exact List.mem_reverse.mpr hc
      rcases List.mem_map.mp hmem with ⟨x, hx, hxc⟩
      exact ⟨x, hx, by rw [hxc]; exact hcV⟩
    exact prepare_votes_replay_err hauth hprune
      (replay_unaccounted_err_of_bad vm1 hbad')

/-- **C8**: the `votes` field returned by `finalize_blocks` is exactly the
merged tally produced by `prepare_votes` — the removals done while walking
the ancestry affect only the working clone of the vote map, so neither the
returned vote counts nor the returned ancestry depend on how many ancestors
were finalized. -/
theorem claim_C8 {recov : Recover} {cached : CachedFinalityVotes S}
    {bf : HeaderId} {vaddrs : List Address} {id : HeaderId} {sub : Option S}
    {hdr : Header} {t : ℕ} {eff : FinalityEffects S}
    (h : finalize_blocks recov cached bf vaddrs id sub hdr t = some (.ok eff)) :
    prepare_votes recov cached bf.number vaddrs.toFinset id hdr sub =
      some (.ok eff.votes) ∧
    finalize_loop vaddrs.toFinset t eff.votes.ancestry eff.votes.votes =
      some eff.finalized_headers :=
  finalize_blocks_ok_inv h

/-- **C10**: whenever `prepare_votes` succeeds, the returned tally has a
non-empty ancestry whose newest entry is exactly the importing header's id
and submitter with signer set `{author}`, and the author's returned vote
count is at least 1. -/
theorem claim_C10 {recov : Recover} {cached : CachedFinalityVotes S} {bfn : ℕ}
    {V : Finset Address} {id : HeaderId} {hdr : Header} {sub : Option S}
    {fv : FinalityVotes S}
    (h : prepare_votes recov cached bfn V id hdr sub = some (.ok fv)) :
    fv.ancestry ≠ [] ∧
    fv.ancestry.getLast? = some ⟨id, sub, {hdr.author}⟩ ∧
    1 ≤ (fv.votes.lookup hdr.author).getD 0 := by
  rcases prepare_votes_ok_inv h with ⟨hauth, anc1, vm1, vm2, hprune, hreplay, hfv⟩
  subst hfv
  refine ⟨by simp, ?_, ?_⟩
  · exact List.getLast?_concat _
  · rw [lookup_add_signer_vote]
    simp

/-! ### Abort behaviour of `remove_signers_votes` -/

theorem remove_signers_votes_list_isSome {l : List Address} {m : VoteMap}
    (hnd : l.Nodup) (hall : ∀ x ∈ l, (m.lookup x).isSome = true) :
    (remove_signers_votes_list l m).isSome = true := by
  induction l generalizing m with
  | nil => rfl
  | cons s rest ih =>
    rcases List.nodup_cons.mp hnd with ⟨hsr, hnd'⟩
    rcases Option.isSome_iff_exists.mp (hall s (List.mem_cons_self s rest))
      with ⟨n, hn⟩
    rcases remove_signer_vote_isSome hn with ⟨m₁, hm₁⟩
    rw [remove_signers_votes_list, hm₁]
    refine ih hnd' (fun x hx => ?_)
    have hxs : x ≠ s := fun h => hsr (h ▸ hx)
    rw [lookup_remove_signer_vote hm₁ x, if_neg hxs]
    exact hall x (List.mem_cons_of_mem _ hx)

theorem remove_signers_votes_list_none {l : List Address} {m : VoteMap}
    (hnd : l.Nodup) (hbad : ∃ x ∈ l, m.lookup x = none) :
    remove_signers_votes_list l m = none := by
  induction l generalizing m with
  | nil =>
    rcases hbad with ⟨x, hx, _⟩
    exact absurd hx (by simp)
  | cons s rest ih =>
    rcases List.nodup_cons.mp hnd with ⟨hsr, hnd'⟩
    rcases hbad with ⟨x, hx, hxn⟩
    rcases List.mem_cons.mp hx with rfl | hxr
    · rw [remove_signers_votes_list, remove_signer_vote_of_none hxn]
    · rcases hls : m.lookup s with _ | n
      · rw [remove_signers_votes_list, remove_signer_vote_of_none hls]
      · rcases remove_signer_vote_isSome hls with ⟨m₁, hm₁⟩
        rw [remove_signers_votes_list, hm₁]
        refine ih hnd' ⟨x, hxr, ?_⟩
        have hxs : x ≠ s := fun h => hsr (h ▸ hxr)
        rw [lookup_remove_signer_vote hm₁ x, if_neg hxs]
        exact hxn

/-- **C9** (amended): if every signer to remove has a strictly positive count
stored in the votes map, the vacant-entry branch of `remove_signers_votes` is
unreachable and a value is returned; if the precondition is violated by a
signer that is *absent* from the map, the function aborts fatally (modelled
as `none`) rather than returning a value.  (A signer stored with an explicit
count of 0 — a state the vote-tally invariant excludes — is removed without
aborting; see the counterexample.) -/
theorem claim_C9 (s : Finset Address) (m : VoteMap) :
    ((∀ x ∈ s, ∃ n, m.lookup x = some n ∧ 0 < n) →
      (remove_signers_votes s m).isSome = true) ∧
    ((∃ x ∈ s, m.lookup x = none) → remove_signers_votes s m = none) := by
  constructor
  · intro hpos
    rw [remove_signers_votes]
    refine remove_signers_votes_list_isSome (nodup_sortAsc s) (fun x hx => ?_)
    rcases hpos x (mem_sortAsc.mp hx) with ⟨n, hn, _⟩
    rw [hn]
    rfl
  · intro hbad
    rcases hbad with ⟨x, hx, hxn⟩
    rw [remove_signers_votes]
    exact remove_signers_votes_list_none (nodup_sortAsc s)
      ⟨x, mem_sortAsc.mpr hx, hxn⟩

/-- **C9** (counterexample to the claim as stated): a map holding an explicit
zero count violates the precondition "every signer has a strictly positive
count in the votes map", yet `remove_signers_votes` returns a value (it
removes the zero entry) instead of aborting. -/
theorem claim_C9_cex :
    ¬ (0 < (((∅ : VoteMap).insert 0 0).lookup 0).getD 0) ∧
      remove_signers_votes {0} ((∅ : VoteMap).insert 0 0) = some ∅ := by
  decide

/-- **C9** (witness): both parts of the amended claim applied at concrete
inputs: removing signer `0` from a map holding `0 ↦ 2` succeeds, and
removing signer `0` from the empty map aborts. -/
theorem claim_C9_witness :
    (remove_signers_votes {0} ((∅ : VoteMap).insert 0 2)).isSome = true ∧
      remove_signers_votes ({0} : Finset Address) (∅ : VoteMap) = none := by
  constructor
  · refine (claim_C9 {0} ((∅ : VoteMap).insert 0 2)).1 (fun x hx => ?_)
    rcases Finset.mem_singleton.mp hx with rfl
    exact ⟨2, by decide, by decide⟩
  · exact (claim_C9 {0} (∅ : VoteMap)).2
      ⟨0, Finset.mem_singleton_self 0, by decide⟩

theorem pairwise_dropWhile_gt {bfn : ℕ} {anc : List (FinalityAncestor S)}
    (hs : List.Pairwise (fun x y => x.id.number < y.id.number) anc) :
    ∀ x ∈ anc.dropWhile (fun x => decide (x.id.number ≤ bfn)),
      bfn < x.id.number := by
  induction anc with
  | nil => simp
  | cons a rest ih =>
    rcases List.pairwise_cons.mp hs with ⟨ha, hrest⟩
    by_cases hp : a.id.number ≤ bfn
    · have hd : (decide (a.id.number ≤ bfn)) = true := by simpa using hp
      simp only [List.dropWhile_cons, hd, if_true]
      exact ih hrest
    · have hd : (decide (a.id.number ≤ bfn)) = false := by simpa using hp
      simp only [List.dropWhile_cons, hd, Bool.false_eq_true, if_false]
      intro x hx
      rcases List.mem_cons.mp hx with rfl | hxr
      · omega
      · have := ha x hxr
        omega

/-- **C6** (amended): given a cached snapshot satisfying the tally invariant
whose ancestry is strictly increasing by block number, the pruning loop of
`prepare_votes` removes exactly the leading ancestry entries with number
≤ `best_finalized_number`, decrementing their signers' vote counts (entries
reaching zero are dropped from the map, so the pruned entries contribute
nothing to the resulting counts); the first entry whose number exceeds
`best_finalized_number` and everything after it is retained, every *retained
snapshot* entry has number > `best_finalized_number`, and the merged tally's
ancestry starts with exactly the retained suffix.  (Entries contributed by
the unaccounted tail or the importing header are appended regardless of
their numbers — see the counterexample.) -/
theorem claim_C6 {bfn : ℕ} {fv : FinalityVotes S}
    (hinv : TallyInv fv)
    (hsorted : List.Pairwise (fun x y => x.id.number < y.id.number) fv.ancestry) :
    ∃ vm', prune_finalized bfn fv.ancestry fv.votes =
        some (fv.ancestry.dropWhile (fun x => decide (x.id.number ≤ bfn)), vm') ∧
      (∀ x ∈ fv.ancestry.dropWhile (fun x => decide (x.id.number ≤ bfn)),
        bfn < x.id.number) ∧
      TallyInv ⟨vm', fv.ancestry.dropWhile (fun x => decide (x.id.number ≤ bfn))⟩ ∧
      (∀ (recov : Recover) (cached : CachedFinalityVotes S) (V : Finset Address)
        (id : HeaderId) (hdr : Header) (sub : Option S) (out : FinalityVotes S),
        cached.votes = some fv →
        prepare_votes recov cached bfn V id hdr sub = some (.ok out) →
        ∃ tail, out.ancestry =
          fv.ancestry.dropWhile (fun x => decide (x.id.number ≤ bfn)) ++ tail) := by
  have hg := good_iff_tallyInv.mp hinv
  rcases prune_finalized_good bfn hg with ⟨vm', hp, hg'⟩
  refine ⟨vm', hp, pairwise_dropWhile_gt hsorted,
    good_iff_tallyInv.mpr hg', ?_⟩
  intro recov cached V id hdr sub out hcv hout
  rcases prepare_votes_ok_inv hout with ⟨hauth, anc1, vm1, vm2, hprune, hreplay, hout'⟩
  rw [hcv] at hprune
  simp only [Option.getD_some] at hprune
  rw [hp] at hprune
  simp only [Option.some.injEq, Prod.mk.injEq] at hprune
  rcases hprune with ⟨ha1, _⟩
  refine ⟨replay_ancestors recov (empty_steps_signers recov hdr)
      cached.unaccounted_ancestry ++ [⟨id, sub, {hdr.author}⟩], ?_⟩
  rw [hout', ← ha1, List.append_assoc]

/-- **C6** (counterexample to the claim as stated): the merged tally *can*
contain ancestry entries with number ≤ `best_finalized_number` — the replay
loop appends unaccounted ancestors and the importing header without checking
their numbers.  Here `best_finalized_number = 5`, the unaccounted ancestor
has block number 0, the cached snapshot is empty (so its strictly-increasing
hypothesis holds vacuously), and the merged ancestry contains an entry with
number 0 ≤ 5. -/
theorem claim_C6_cex :
    prepare_votes (fun _ _ => none)
        (⟨[(⟨0, 7⟩, none, ⟨1, 0, 0, none⟩)], none⟩ : CachedFinalityVotes Unit)
        5 {1, 2} ⟨9, 9⟩ ⟨2, 0, 9, none⟩ none =
      some (.ok ⟨((∅ : VoteMap).insert 1 1).insert 2 1,
        [⟨⟨0, 7⟩, none, {1}⟩, ⟨⟨9, 9⟩, none, {2}⟩]⟩) ∧
    ([⟨⟨0, 7⟩, none, ({1} : Finset ℕ)⟩, ⟨⟨9, 9⟩, none, {2}⟩] :
        List (FinalityAncestor Unit)).any
      (fun x => decide (x.id.number ≤ 5)) = true := by
  constructor
  · decide
  · decide

/-! ### List bookkeeping for the cache-equivalence analysis -/

theorem dropWhile_append_all {α : Type} {p : α → Bool} {l1 l2 : List α}
    (h : ∀ x ∈ l1, p x = true) :
    (l1 ++ l2).dropWhile p = l2.dropWhile p := by
  induction l1 with
  | nil => rfl
  | cons a rest ih =>
    rw [List.cons_append, List.dropWhile_cons, h a (List.mem_cons_self a rest)]
    simp only [if_true]
    exact ih (fun x hx => h x (List.mem_cons_of_mem _ hx))

theorem head_dropWhile_false {α : Type} {p : α → Bool} :
    ∀ {l : List α} {a : α} {t : List α}, l.dropWhile p = a :: t → p a = false := by
  intro l
  induction l with
  | nil =>
    intro a t h
    exact absurd h (by simp)
  | cons b l' ih =>
    intro a t h
    rcases hpb : p b with _ | _
    · rw [List.dropWhile_cons, hpb] at h
      simp only [Bool.false_eq_true, if_false, List.cons.injEq] at h
      rw [← h.1]
      exact hpb
    · rw [List.dropWhile_cons, hpb] at h
      simp only [if_true] at h
      exact ih h

theorem replay_ancestors_number_all {recov : Recover} {pes : Finset Address}
    {l : List (HeaderId × Option S × Header)} {P : ℕ → Prop}
    (h : ∀ e ∈ l, P e.1.number) :
    ∀ x ∈ replay_ancestors (S := S) recov pes l, P x.id.number := by
  induction l generalizing pes with
  | nil => simp [replay_ancestors]
  | cons e rest ih =>
    rcases e with ⟨aid, asub, ahdr⟩
    intro x hx
    rw [replay_ancestors] at hx
    rcases List.mem_append.mp hx with hx1 | hx2
    · exact ih (fun e' he' => h e' (List.mem_cons_of_mem _ he')) x hx1
    · rcases List.mem_singleton.mp hx2 with rfl
      exact h (aid, asub, ahdr) (List.mem_cons_self _ _)

theorem replay_ancestors_singleton (recov : Recover) (pes : Finset Address)
    (e : HeaderId × Option S × Header) :
    replay_ancestors (S := S) recov pes [e] =
      [⟨e.1, e.2.1, insert e.2.2.author pes⟩] := by
  rcases e with ⟨aid, asub, ahdr⟩
  rfl

theorem replay_unaccounted_ok_valid {recov : Recover} {V : Finset Address}
    {l : List (HeaderId × Option S × Header)} {pes : Finset Address}
    {m m' : VoteMap} {anc : List (FinalityAncestor S)}
    (h : replay_unaccounted recov V l pes m = .ok (m', anc)) :
    ∀ x ∈ replay_ancestors (S := S) recov pes l, x.signers ⊆ V := by
  by_contra hc
  push_neg at hc
  rcases hc with ⟨x, hx, hxs⟩
  rw [replay_unaccounted_err_of_bad m ⟨x, hx, hxs⟩] at h
  exact absurd h (by simp)

/-- The ancestry retained by pruning a snapshot produced at header `B` from
a full replay of `prefixE` equals the ancestry a full rescan would build
(with an empty carried empty-step set) over the chain entries whose numbers
exceed `best_finalized_number`. -/
theorem prune_matches_full (recov : Recover) (bfn : ℕ)
    (prefixE : List (HeaderId × Option S × Header))
    (idB : HeaderId) (subB : Option S) (hdrB : Header) :
    (replay_ancestors (S := S) recov (empty_steps_signers recov hdrB)
          prefixE.reverse ++
        ([⟨idB, subB, {hdrB.author}⟩] : List (FinalityAncestor S))).dropWhile
        (fun x => decide (x.id.number ≤ bfn)) =
      replay_ancestors recov ∅
        (((prefixE ++ [(idB, subB, hdrB)]).dropWhile
          (fun e => decide (e.1.number ≤ bfn))).reverse) := by
  have hsplit := List.takeWhile_append_dropWhile
    (fun e => decide (e.1.number ≤ bfn)) prefixE
  have hAq : ∀ e ∈ prefixE.takeWhile (fun e => decide (e.1.number ≤ bfn)),
      decide (e.1.number ≤ bfn) = true := by
    intro e he
    have h2 := List.mem_takeWhile_imp he
    exact h2
  have hArev : ∀ e ∈ (prefixE.takeWhile
      (fun e => decide (e.1.number ≤ bfn))).reverse, e.1.number ≤ bfn := by
    intro e he
    have := List.mem_takeWhile_imp (List.mem_reverse.mp he)
    simpa using this
  have hrevP : prefixE.reverse =
      (prefixE.dropWhile (fun e => decide (e.1.number ≤ bfn))).reverse ++
        (prefixE.takeWhile (fun e => decide (e.1.number ≤ bfn))).reverse := by
    rw [← List.reverse_append, hsplit]
  have hq1 : (prefixE ++ [(idB, subB, hdrB)]).dropWhile
      (fun e => decide (e.1.number ≤ bfn)) =
      (prefixE.dropWhile (fun e => decide (e.1.number ≤ bfn)) ++
        [(idB, subB, hdrB)]).dropWhile (fun e => decide (e.1.number ≤ bfn)) := by
    conv_lhs => rw [← hsplit, List.append_assoc]
    exact dropWhile_append_all hAq
  rw [hrevP, replay_ancestors_append]
  have hA : ∀ x ∈ replay_ancestors (S := S) recov
      (carried_ess recov (empty_steps_signers recov hdrB)
        (prefixE.dropWhile (fun e => decide (e.1.number ≤ bfn))).reverse)
      (prefixE.takeWhile (fun e => decide (e.1.number ≤ bfn))).reverse,
      decide (x.id.number ≤ bfn) = true := by
    intro x hx
    have := replay_ancestors_number_all (P := fun n => n ≤ bfn) hArev x hx
    simpa using this
  rw [List.append_assoc, dropWhile_append_all hA, hq1]
  rcases hD : prefixE.dropWhile (fun e => decide (e.1.number ≤ bfn))
    with _ | ⟨d, D'⟩
  · rw [hD]
    by_cases hBe : idB.number ≤ bfn
    · have hq : (decide (idB.number ≤ bfn)) = true := by simpa using hBe
      simp [replay_ancestors, List.dropWhile_cons, hq]
    · have hq : (decide (idB.number ≤ bfn)) = false := by simpa using hBe
      simp [replay_ancestors_singleton, replay_ancestors,
        List.dropWhile_cons, hq]
  · rw [hD]
    have hqd : (decide (d.1.number ≤ bfn)) = false := by
      have := head_dropWhile_false hD
      simpa using this
    have hL : replay_ancestors (S := S) recov
        (empty_steps_signers recov hdrB) (d :: D').reverse ++
          [⟨idB, subB, ({hdrB.author} : Finset Address)⟩] =
        ⟨d.1, d.2.1, insert d.2.2.author (carried_ess recov
            (empty_steps_signers recov hdrB) D'.reverse)⟩ ::
          (replay_ancestors recov (empty_steps_signers recov hdrB) D'.reverse ++
            [⟨idB, subB, {hdrB.author}⟩]) := by
      rw [List.reverse_cons, replay_ancestors_append,
        replay_ancestors_singleton]
      simp
    have hCar : carried_ess (S := S) recov ∅
        ((D' ++ [(idB, subB, hdrB)]).reverse) =
        carried_ess recov (empty_steps_signers recov hdrB) D'.reverse := by
      rw [List.reverse_append]
      rfl
    have hR : ((d :: D') ++ [(idB, subB, hdrB)]).dropWhile
        (fun e => decide (e.1.number ≤ bfn)) =
        d :: (D' ++ [(idB, subB, hdrB)]) := by
      simp only [List.cons_append, List.dropWhile_cons, hqd,
        Bool.false_eq_true, if_false]
    rw [hL, hR, List.reverse_cons, replay_ancestors_append,
      replay_ancestors_singleton, hCar]
    have hTail : replay_ancestors (S := S) recov ∅
        ((D' ++ [(idB, subB, hdrB)]).reverse) =
        replay_ancestors recov (empty_steps_signers recov hdrB) D'.reverse ++
          [⟨idB, subB, insert hdrB.author ∅⟩] := by
      rw [List.reverse_append]
      rfl
    rw [hTail]
    rw [List.dropWhile_cons]
    simp [hqd]

theorem carried_ess_reverse_child (recov : Recover) (hdrT : Header)
    (tailE : List (HeaderId × Option S × Header))
    (hess : empty_steps_signers recov
      ((tailE.head?.map (fun e => e.2.2)).getD hdrT) = ∅) :
    carried_ess (S := S) recov (empty_steps_signers recov hdrT)
      tailE.reverse = ∅ := by
  cases tailE with
  | nil => exact hess
  | cons t ts =>
    rw [List.reverse_cons, carried_ess_concat]
    exact hess

/-- **C1** (amended): computing the tally for a target header by a full
rescan (empty cached snapshot, unaccounted ancestry covering every chain
entry above the stop point) and by cache-then-replay from the snapshot
previously returned for an ancestor `B` (plus the unaccounted tail strictly
between `B` and the target) yield identical `FinalityVotes` — *provided* the
empty-step signer set extracted from `B`'s immediate child (the oldest tail
header, or the target header itself when the tail is empty) is empty.
Without that proviso the two computations differ: the full rescan credits
those signers to `B` while the cached path does not (see the
counterexample). -/
theorem claim_C1 {recov : Recover} {V : Finset Address} {bfn bfnB : ℕ}
    {prefixE tailE : List (HeaderId × Option S × Header)}
    {idB idT : HeaderId} {subB subT : Option S} {hdrB hdrT : Header}
    {fvB fvF : FinalityVotes S}
    (hB : prepare_votes recov (⟨prefixE.reverse, none⟩ : CachedFinalityVotes S)
      bfnB V idB hdrB subB = some (.ok fvB))
    (hess : empty_steps_signers recov
      ((tailE.head?.map (fun e => e.2.2)).getD hdrT) = ∅)
    (hfull : prepare_votes recov
      (⟨((prefixE ++ [(idB, subB, hdrB)]).dropWhile
            (fun e => decide (e.1.number ≤ bfn)) ++ tailE).reverse, none⟩ :
        CachedFinalityVotes S) bfn V idT hdrT subT = some (.ok fvF)) :
    prepare_votes recov (⟨tailE.reverse, some fvB⟩ : CachedFinalityVotes S)
      bfn V idT hdrT subT = some (.ok fvF) := by
  rcases prepare_votes_ok_inv hB with ⟨hauthB, anc1B, vm1B, vm2B, hpruneB, hreplayB, hfvB⟩
  have hpruneB2 : (some ([], (∅ : VoteMap)) :
      Option (List (FinalityAncestor S) × VoteMap)) = some (anc1B, vm1B) := hpruneB
  simp only [Option.some.injEq, Prod.mk.injEq] at hpruneB2
  rcases hpruneB2 with ⟨hB1, hB2⟩
  subst hB1
  subst hB2
  rcases prepare_votes_ok_inv hfull with ⟨hauthT, anc1F, vm1F, vm2F, hpruneF, hreplayF, hfvF⟩
  have hpruneF2 : (some ([], (∅ : VoteMap)) :
      Option (List (FinalityAncestor S) × VoteMap)) = some (anc1F, vm1F) := hpruneF
  simp only [Option.some.injEq, Prod.mk.injEq] at hpruneF2
  rcases hpruneF2 with ⟨hF1, hF2⟩
  subst hF1
  subst hF2
  have hreplayF' : replay_unaccounted recov V
      (((prefixE ++ [(idB, subB, hdrB)]).dropWhile
        (fun e => decide (e.1.number ≤ bfn)) ++ tailE).reverse)
      (empty_steps_signers recov hdrT) (∅ : VoteMap) =
      .ok (vm2F, replay_ancestors recov (empty_steps_signers recov hdrT)
        (((prefixE ++ [(idB, subB, hdrB)]).dropWhile
          (fun e => decide (e.1.number ≤ bfn)) ++ tailE).reverse)) := hreplayF
  have hancB : fvB.ancestry = replay_ancestors recov
      (empty_steps_signers recov hdrB) prefixE.reverse ++
      [⟨idB, subB, {hdrB.author}⟩] := by
    rw [hfvB]
    simp
  have hinvB : TallyInv fvB :=
    prepare_votes_tally (fun fv0 h0 => absurd h0 (by simp)) hB
  have hgB : good fvB.votes (vote_count fvB.ancestry) :=
    good_iff_tallyInv.mp hinvB
  rcases prune_finalized_good bfn hgB with ⟨vmC, hpC, hgC⟩
  have hret : fvB.ancestry.dropWhile (fun x => decide (x.id.number ≤ bfn)) =
      replay_ancestors recov ∅ (((prefixE ++ [(idB, subB, hdrB)]).dropWhile
        (fun e => decide (e.1.number ≤ bfn))).reverse) := by
    rw [hancB]
    exact prune_matches_full recov bfn prefixE idB subB hdrB
  have hcarr := carried_ess_reverse_child recov hdrT tailE hess
  have hRAF : replay_ancestors (S := S) recov (empty_steps_signers recov hdrT)
      (((prefixE ++ [(idB, subB, hdrB)]).dropWhile
        (fun e => decide (e.1.number ≤ bfn)) ++ tailE).reverse) =
      replay_ancestors recov ∅ (((prefixE ++ [(idB, subB, hdrB)]).dropWhile
        (fun e => decide (e.1.number ≤ bfn))).reverse) ++
      replay_ancestors recov (empty_steps_signers recov hdrT) tailE.reverse := by
    rw [List.reverse_append, replay_ancestors_append, hcarr]
  have hvalF := replay_unaccounted_ok_valid hreplayF'
  have hvalT : ∀ x ∈ replay_ancestors (S := S) recov
      (empty_steps_signers recov hdrT) tailE.reverse, x.signers ⊆ V := by
    intro x hx
    apply hvalF
    rw [hRAF]
    exact List.mem_append_right _ hx
  rcases replay_unaccounted_ok_of_valid vmC hvalT with ⟨vmC', ancT', hreplayC⟩
  have hancT' := replay_unaccounted_ok_anc hreplayC
  subst hancT'
  have hstep := @prepare_votes_step S recov ⟨tailE.reverse, some fvB⟩ bfn V
    idT hdrT subT (fvB.ancestry.dropWhile (fun x => decide (x.id.number ≤ bfn)))
    vmC vmC' (replay_ancestors recov (empty_steps_signers recov hdrT) tailE.reverse)
    hauthT hpC hreplayC
  rw [hstep]
  have hgC' := replay_unaccounted_ok_good hreplayC hgC
  have hgF := replay_unaccounted_ok_good hreplayF' good_empty
  have hcntF : ∀ a, (0 : ℕ) + vote_count (replay_ancestors (S := S) recov
      (empty_steps_signers recov hdrT)
      (((prefixE ++ [(idB, subB, hdrB)]).dropWhile
        (fun e => decide (e.1.number ≤ bfn)) ++ tailE).reverse)) a =
      vote_count (fvB.ancestry.dropWhile (fun x => decide (x.id.number ≤ bfn))) a +
        vote_count (replay_ancestors recov (empty_steps_signers recov hdrT)
          tailE.reverse) a := by
    intro a
    rw [hRAF, vote_count_append, ← hret]
    omega
  have hvotesEq : add_signer_vote hdrT.author vmC' =
      add_signer_vote hdrT.author vm2F := by
    apply good_ext (add_signer_vote_good hgC' hdrT.author)
    apply good_congr (add_signer_vote_good hgF hdrT.author)
    intro a
    by_cases ha : a = hdrT.author
    · simp only [if_pos ha]
      rw [hcntF a]
    · simp only [if_neg ha]
      rw [hcntF a]
  rw [hfvF]
  simp only [Option.some.injEq, Except.ok.injEq]
  refine congrArg₂ FinalityVotes.mk hvotesEq ?_
  rw [hret, hRAF]
  simp [List.append_assoc]

/-- **C1** (counterexample to the claim as stated): with an empty step sealed
in the importing header that recovers to validator 2, replaying from the
snapshot previously returned for the parent `B` (with the corresponding —
here empty — unaccounted tail) differs from the full rescan: the rescan
credits validator 2 to `B`, the cached path does not.  Same target header,
same `best_finalized_number` (0) and same validator set on both sides. -/
theorem claim_C1_cex :
    prepare_votes (fun st _ => if st.signature = 1 then some 2 else none)
        (⟨[], none⟩ : CachedFinalityVotes Unit) 0 {0, 1, 2}
        ⟨1, 11⟩ ⟨0, 99, 1, none⟩ none =
      some (.ok ⟨(∅ : VoteMap).insert 0 1, [⟨⟨1, 11⟩, none, {0}⟩]⟩) ∧
    prepare_votes (fun st _ => if st.signature = 1 then some 2 else none)
        (⟨[], some ⟨(∅ : VoteMap).insert 0 1, [⟨⟨1, 11⟩, none, {0}⟩]⟩⟩ :
          CachedFinalityVotes Unit)
        0 {0, 1, 2} ⟨2, 12⟩ ⟨1, 11, 2, some [⟨1, 5⟩]⟩ none ≠
      prepare_votes (fun st _ => if st.signature = 1 then some 2 else none)
        (⟨[(⟨1, 11⟩, none, ⟨0, 99, 1, none⟩)], none⟩ : CachedFinalityVotes Unit)
        0 {0, 1, 2} ⟨2, 12⟩ ⟨1, 11, 2, some [⟨1, 5⟩]⟩ none := by
  constructor
  · decide
  · decide

/-- **C1** (witness): the amended equivalence applied at a concrete input
with no empty steps: full rescan over `[B]` and cache-then-replay from the
snapshot at `B` produce the same tally for the target header. -/
theorem claim_C1_witness :
    prepare_votes (fun _ _ => none)
        (⟨([] : List (HeaderId × Option Unit × Header)).reverse,
          some ⟨(∅ : VoteMap).insert 0 1, [⟨⟨1, 11⟩, none, {0}⟩]⟩⟩ :
          CachedFinalityVotes Unit)
        0 {0, 1} ⟨2, 12⟩ ⟨1, 11, 2, none⟩ none =
      some (.ok ⟨((∅ : VoteMap).insert 0 1).insert 1 1,
        [⟨⟨1, 11⟩, none, {0}⟩, ⟨⟨2, 12⟩, none, {1}⟩]⟩) :=
  @claim_C1 Unit (fun _ _ => none) {0, 1} 0 0 [] [] ⟨1, 11⟩ ⟨2, 12⟩
    none none ⟨0, 99, 1, none⟩ ⟨1, 11, 2, none⟩
    ⟨(∅ : VoteMap).insert 0 1, [⟨⟨1, 11⟩, none, {0}⟩]⟩
    ⟨((∅ : VoteMap).insert 0 1).insert 1 1,
      [⟨⟨1, 11⟩, none, {0}⟩, ⟨⟨2, 12⟩, none, {1}⟩]⟩
    (by decide) (by decide) (by decide)

/-- **C2** (witness): the credited-signers characterisation applied at a
concrete input whose importing header seals an empty step recovering to
validator 2: the single unaccounted ancestor is credited with its author 0
plus that signer, and the importing header's own entry is `{1}`. -/
theorem claim_C2_witness :
    ∃ pruned new_anc,
      ([⟨⟨1, 11⟩, none, ({0, 2} : Finset ℕ)⟩, ⟨⟨2, 12⟩, none, {1}⟩] :
          List (FinalityAncestor Unit)) =
        pruned ++ new_anc ++ [⟨⟨2, 12⟩, none, {1}⟩] ∧
      new_anc.map (fun x => x.signers) =
        (credited_signers (S := Unit)
          (fun st _ => if st.signature = 1 then some 2 else none)
          (⟨1, 11, 2, some [⟨1, 5⟩]⟩ : Header)
          [(⟨1, 11⟩, none, ⟨0, 99, 1, none⟩)]).reverse ∧
      new_anc.map (fun x => (x.id, x.submitter)) =
        (([(⟨1, 11⟩, none, ⟨0, 99, 1, none⟩)] :
          List (HeaderId × Option Unit × Header)).map
          (fun e => (e.1, e.2.1))).reverse := by
  have h := claim_C2 (S := Unit)
    (show prepare_votes (fun st _ => if st.signature = 1 then some 2 else none)
      (⟨[(⟨1, 11⟩, none, ⟨0, 99, 1, none⟩)], none⟩ : CachedFinalityVotes Unit)
      0 {0, 1, 2} ⟨2, 12⟩ ⟨1, 11, 2, some [⟨1, 5⟩]⟩ none =
      some (.ok ⟨(((∅ : VoteMap).insert 0 1).insert 2 1).insert 1 1,
        [⟨⟨1, 11⟩, none, {0, 2}⟩, ⟨⟨2, 12⟩, none, {1}⟩]⟩) from by decide)
  exact h

/-- **C3** (witness): the tally invariant holds for the tally returned by
`prepare_votes` at a concrete input (empty snapshot, no ancestors). -/
theorem claim_C3_witness :
    TallyInv (⟨(∅ : VoteMap).insert 0 1,
      [⟨⟨1, 10⟩, none, ({0} : Finset ℕ)⟩]⟩ : FinalityVotes Unit) :=
  claim_C3 (fun fv0 h0 => absurd h0 (by simp))
    (show prepare_votes (fun _ _ => none)
      (⟨[], none⟩ : CachedFinalityVotes Unit) 0 {0} ⟨1, 10⟩ ⟨0, 9, 1, none⟩
      none = some (.ok ⟨(∅ : VoteMap).insert 0 1, [⟨⟨1, 10⟩, none, {0}⟩]⟩)
      from by decide)

/-- **C5** (witness): the prefix property applied to a concrete
`finalize_blocks` run with 5 validators where exactly the oldest of three
ancestry entries is finalized. -/
theorem claim_C5_witness :
    ∃ k, ([(⟨1, 101⟩, none)] : List (HeaderId × Option Unit)) =
        (([⟨⟨1, 101⟩, none, {0}⟩, ⟨⟨2, 102⟩, none, {1}⟩,
          ⟨⟨3, 103⟩, none, ({2} : Finset ℕ)⟩] :
            List (FinalityAncestor Unit)).take k).map
          (fun x => (x.id, x.submitter)) ∧
      (k = ([⟨⟨1, 101⟩, none, {0}⟩, ⟨⟨2, 102⟩, none, {1}⟩,
          ⟨⟨3, 103⟩, none, ({2} : Finset ℕ)⟩] :
            List (FinalityAncestor Unit)).length ∨
        ∃ m' b rest',
          walk_votes (([⟨⟨1, 101⟩, none, {0}⟩, ⟨⟨2, 102⟩, none, {1}⟩,
            ⟨⟨3, 103⟩, none, ({2} : Finset ℕ)⟩] :
              List (FinalityAncestor Unit)).take k)
            ((((∅ : VoteMap).insert 1 1).insert 0 1).insert 2 1) = some m' ∧
          ([⟨⟨1, 101⟩, none, {0}⟩, ⟨⟨2, 102⟩, none, {1}⟩,
            ⟨⟨3, 103⟩, none, ({2} : Finset ℕ)⟩] :
              List (FinalityAncestor Unit)).drop k = b :: rest' ∧
          is_finalized ([0, 1, 2, 3, 4] : List Address).toFinset m'
            (decide (1000000 ≤ b.id.number)) = false) := by
  have h := claim_C5 (S := Unit)
    (show finalize_blocks (fun _ _ => none)
      (⟨[(⟨2, 102⟩, none, ⟨1, 101, 2, none⟩),
        (⟨1, 101⟩, none, ⟨0, 1000, 1, none⟩)], none⟩ : CachedFinalityVotes Unit)
      ⟨0, 1000⟩ [0, 1, 2, 3, 4] ⟨3, 103⟩ none ⟨2, 102, 3, none⟩ 1000000 =
      some (.ok ⟨[(⟨1, 101⟩, none)],
        ⟨(((∅ : VoteMap).insert 1 1).insert 0 1).insert 2 1,
          [⟨⟨1, 101⟩, none, {0}⟩, ⟨⟨2, 102⟩, none, {1}⟩,
            ⟨⟨3, 103⟩, none, {2}⟩]⟩⟩) from by decide)
  exact h

/-- **C6** (witness): the amended pruning characterisation applied to a
concrete snapshot with one ancestry entry below `best_finalized_number`:
the entry is pruned, the map empties, and the invariant holds afterwards. -/
theorem claim_C6_witness :
    ∃ vm', prune_finalized 5
        ([⟨⟨1, 10⟩, none, ({0} : Finset ℕ)⟩] : List (FinalityAncestor Unit))
        ((∅ : VoteMap).insert 0 1) =
      some (([⟨⟨1, 10⟩, none, ({0} : Finset ℕ)⟩] :
          List (FinalityAncestor Unit)).dropWhile
            (fun x => decide (x.id.number ≤ 5)), vm') := by
  have hinv : TallyInv (⟨(∅ : VoteMap).insert 0 1,
      [⟨⟨1, 10⟩, none, ({0} : Finset ℕ)⟩]⟩ : FinalityVotes Unit) := by
    intro a
    by_cases ha : a = 0
    · subst ha
      exact ⟨by decide, by decide⟩
    · constructor
      · rw [Finmap.lookup_insert_of_ne _ ha, Finmap.lookup_empty,
          vote_count_cons, vote_count_nil]
        simp [ha]
      · rw [Finmap.lookup_insert_of_ne _ ha, Finmap.lookup_empty]
        simp
  have hs : List.Pairwise
      (fun x y : FinalityAncestor Unit => x.id.number < y.id.number)
      [⟨⟨1, 10⟩, none, ({0} : Finset ℕ)⟩] := by simp
  rcases claim_C6 hinv hs with ⟨vm', hp, _, _, _⟩
  exact ⟨vm', hp⟩

/-- **C7** (witness): both error paths at concrete inputs — an importing
header whose author is outside the validator set, and an ancestry replay
crediting a signer outside the validator set. -/
theorem claim_C7_witness :
    (prepare_votes (fun _ _ => none) (⟨[], none⟩ : CachedFinalityVotes Unit)
        0 ([] : List Address).toFinset ⟨1, 10⟩ ⟨0, 9, 1, none⟩ none =
      some (.error .NotValidator)) ∧
    (prepare_votes (fun _ _ => none)
        (⟨[(⟨1, 10⟩, none, ⟨5, 0, 1, none⟩)], none⟩ : CachedFinalityVotes Unit)
        0 ([0] : List Address).toFinset ⟨2, 11⟩ ⟨0, 10, 2, none⟩ none =
      some (.error .NotValidator)) := by
  constructor
  · exact ((claim_C7 (fun _ _ => none) (⟨[], none⟩ : CachedFinalityVotes Unit)
      ⟨0, 99⟩ [] ⟨1, 10⟩ ⟨0, 9, 1, none⟩ none 0 [] ∅).1 (by decide)).1
  · exact (claim_C7 (fun _ _ => none)
      (⟨[(⟨1, 10⟩, none, ⟨5, 0, 1, none⟩)], none⟩ : CachedFinalityVotes Unit)
      ⟨0, 99⟩ [0] ⟨2, 11⟩ ⟨0, 10, 2, none⟩ none 0 [] ∅).2 (by decide)
      (by decide) (by decide)

/-- **C8** (witness): the frame property applied to a concrete
`finalize_blocks` run: the returned `votes` is exactly the `prepare_votes`
tally even though one ancestor was finalized (and its votes removed from
the working map). -/
theorem claim_C8_witness :
    prepare_votes (fun _ _ => none)
        (⟨[(⟨2, 102⟩, none, ⟨1, 101, 2, none⟩),
          (⟨1, 101⟩, none, ⟨0, 1000, 1, none⟩)], none⟩ :
          CachedFinalityVotes Unit)
        (⟨0, 1000⟩ : HeaderId).number ([0, 1, 2, 3, 4] : List Address).toFinset
        ⟨3, 103⟩ ⟨2, 102, 3, none⟩ none =
      some (.ok (⟨[(⟨1, 101⟩, none)],
        ⟨(((∅ : VoteMap).insert 1 1).insert 0 1).insert 2 1,
          [⟨⟨1, 101⟩, none, {0}⟩, ⟨⟨2, 102⟩, none, {1}⟩,
            ⟨⟨3, 103⟩, none, {2}⟩]⟩⟩ : FinalityEffects Unit).votes) := by
  exact (claim_C8 (show finalize_blocks (fun _ _ => none)
    (⟨[(⟨2, 102⟩, none, ⟨1, 101, 2, none⟩),
      (⟨1, 101⟩, none, ⟨0, 1000, 1, none⟩)], none⟩ : CachedFinalityVotes Unit)
    ⟨0, 1000⟩ [0, 1, 2, 3, 4] ⟨3, 103⟩ none ⟨2, 102, 3, none⟩ 1000000 =
    some (.ok ⟨[(⟨1, 101⟩, none)],
      ⟨(((∅ : VoteMap).insert 1 1).insert 0 1).insert 2 1,
        [⟨⟨1, 101⟩, none, {0}⟩, ⟨⟨2, 102⟩, none, {1}⟩,
          ⟨⟨3, 103⟩, none, {2}⟩]⟩⟩) from by decide)).1

/-- **C10** (witness): the own-header property applied at a concrete input:
the returned ancestry is non-empty, ends with the importing header's entry
with signer set `{author}`, and the author's count is at least 1. -/
theorem claim_C10_witness :
    (⟨(∅ : VoteMap).insert 0 1, [⟨⟨1, 10⟩, none, ({0} : Finset ℕ)⟩]⟩ :
        FinalityVotes Unit).ancestry ≠ [] ∧
    (⟨(∅ : VoteMap).insert 0 1, [⟨⟨1, 10⟩, none, ({0} : Finset ℕ)⟩]⟩ :
        FinalityVotes Unit).ancestry.getLast? =
      some ⟨⟨1, 10⟩, none, {(⟨0, 9, 1, none⟩ : Header).author}⟩ ∧
    1 ≤ (((⟨(∅ : VoteMap).insert 0 1,
        [⟨⟨1, 10⟩, none, ({0} : Finset ℕ)⟩]⟩ :
        FinalityVotes Unit)).votes.lookup
        (⟨0, 9, 1, none⟩ : Header).author).getD 0 :=
  claim_C10 (show prepare_votes (fun _ _ => none)
    (⟨[], none⟩ : CachedFinalityVotes Unit) 0 {0} ⟨1, 10⟩ ⟨0, 9, 1, none⟩
    none = some (.ok ⟨(∅ : VoteMap).insert 0 1, [⟨⟨1, 10⟩, none, {0}⟩]⟩)
    from by decide)

end Eth
